import Mathlib

/-!
Verification of the detection-and-thresholding engine of the nanopart/spcal
repository against its natural-language specification.

Signals are modelled as lists of exact rationals (the idealisation of the
IEEE-754 samples used by the code; none of the verified claims hinges on
rounding).  Threshold values, which the code initialises to `np.inf` and
which can become `NaN` through `bottleneck.nanmean` of an empty selection,
are modelled by the type `FP` below with IEEE comparison semantics.
Fallible functions (Python `raise`) are modelled with `Except String`.
-/

/-- IEEE-style value for thresholds and means: `nan`, `+inf` or a finite
rational.  (`-inf` never arises in the modelled code paths.) -/
inductive FP where
  | nan : FP
  | inf : FP
  | fin : ℚ → FP
deriving DecidableEq, Repr

/-- Strict `<` with IEEE semantics: any comparison involving `nan` is
false, `inf < inf` is false, finite values compare as rationals. -/
def FP.lt : FP → FP → Bool
  | .fin a, .fin b => decide (a < b)
  | .fin _, .inf => true
  | _, _ => false

/-- `bottleneck.nanmean` on a (NaN-free) list: the mean, or NaN when the
list is empty (numpy/bottleneck return NaN for an empty selection). -/
def nanmean (l : List ℚ) : FP :=
  if l.isEmpty then .nan else .fin (l.sum / l.length)

/-!
## Region detection (`src/spcal/detection.py`, `src/nanopart/util.py`)

`get_contiguous_regions` computes the boolean mask `x > limit`, takes its
first difference with a prepended 0, and reads region starts off the rising
edges and region ends off the falling edges; when the mask ends `true`
there is one more start than ends and the signal length (`diff.size`) is
appended as the final end (`diff.size - 1` in the legacy
`nanopart/util.py` version).  `runsAux` is the sequential reading of that
edge scan: it walks the mask left to right carrying the start index of the
currently open region (`cur`); a rising edge opens a region, a falling edge
at index `i` emits `(start, i)`, and a region still open at the end of the
array is emitted with end `length - adj` (`adj = 0` for spcal, `adj = 1`
for the legacy nanopart version). -/
def runsAux (adj : ℕ) : ℕ → Option ℕ → List Bool → List (ℕ × ℕ)
  | _, none, [] => []
  | i, some s, [] => [(s, i - adj)]
  | i, none, b :: rest =>
      if b then runsAux adj (i + 1) (some i) rest else runsAux adj (i + 1) none rest
  | i, some s, b :: rest =>
      if b then runsAux adj (i + 1) (some s) rest else (s, i) :: runsAux adj (i + 1) none rest

/-- Maximal runs of `true` in a mask, `[start, end)` pairs; the final end
of a run touching the end of the array is the array length (spcal
behaviour). -/
def runsOf (m : List Bool) : List (ℕ × ℕ) := runsAux 0 0 none m

/-- `spcal.detection.get_contiguous_regions(x, limit)` for a per-sample
`limit` (a scalar limit is the constant list). -/
def get_contiguous_regions (x : List ℚ) (limit : List ℚ) : List (ℕ × ℕ) :=
  runsOf ((x.zip limit).map fun p => decide (p.2 < p.1))

/-- Fancy-indexing assignment `l[idxs] = vals`, as the left-to-right fold
of single-index `set`s (later assignments win, as in numpy). -/
def setAll (l : List ℤ) (ps : List (ℕ × ℤ)) : List ℤ :=
  ps.foldl (fun acc p => acc.set p.1 p.2) l

/-- `np.cumsum` with a running accumulator. -/
def cumsumFrom (acc : ℤ) : List ℤ → List ℤ
  | [] => []
  | x :: t => (acc + x) :: cumsumFrom (acc + x) t

/-- `np.cumsum` on an integer list. -/
def cumsum (l : List ℤ) : List ℤ := cumsumFrom 0 l

/-- `ix = np.arange(1, regions.shape[0] + 1)` of `label_regions`. -/
def labelIx (regions : List (ℕ × ℕ)) : List ℤ :=
  (List.range regions.length).map fun j => Int.ofNat j + 1

/-- `ends = ends[ends < size]` of `label_regions`: region ends, with those
at or past the array end removed. -/
def labelEndsF (regions : List (ℕ × ℕ)) (size : ℕ) : List ℕ :=
  (regions.map Prod.snd).filter fun e => decide (e < size)

/-- The `labels[starts] = ix` assignment pairs of `label_regions`. -/
def labelPairsStart (regions : List (ℕ × ℕ)) : List (ℕ × ℤ) :=
  (regions.map Prod.fst).zip (labelIx regions)

/-- The `labels[ends] = -ix[: ends.size]` assignment pairs of
`label_regions`. -/
def labelPairsEnd (regions : List (ℕ × ℕ)) (size : ℕ) : List (ℕ × ℤ) :=
  (labelEndsF regions size).zip
    (((labelIx regions).take (labelEndsF regions size).length).map fun z => -z)

/-- The pre-cumsum label array of `label_regions`: zeros with `+i` written
at region starts, then `-i` at kept region ends. -/
def labelPre (regions : List (ℕ × ℕ)) (size : ℕ) : List ℤ :=
  setAll (setAll (List.replicate size 0) (labelPairsStart regions)) (labelPairsEnd regions size)

/-- `spcal.detection.label_regions(regions, size)`: write `+i` at each
region start and `-i` at each region end that is `< size` (ends equal to
`size` are filtered out first), then cumulative-sum, so samples of the
`i`-th region (1-indexed) carry label `i` and all others `0`. -/
def label_regions (regions : List (ℕ × ℕ)) (size : ℕ) : List ℤ :=
  cumsum (labelPre regions size)

/-- `∃ i ∈ [s, e), m[i]`: the segmented OR-reduction
`np.logical_or.reduceat(mask, indices)[::2]` evaluates exactly this on the
`[start, end)` segments of the raveled region list (the trailing index
equal to the array length having been dropped first, as in the source). -/
def segAny (m : List Bool) (s e : ℕ) : Bool := ((m.drop s).take (e - s)).any id

/-- `Σ_{i ∈ [s, e)} y[i]`: the segmented sum `np.add.reduceat(y, indices)[::2]`
on the same segments. -/
def segSum (y : List ℚ) (s e : ℕ) : ℚ := ((y.drop s).take (e - s)).sum

/-- `spcal.detection.accumulate_detections(y, limit_accumulation,
limit_detection, integrate)` with per-sample thresholds (scalars are
constant lists).  Raises iff `np.any(limit_accumulation > limit_detection)`,
before anything is computed; otherwise finds the contiguous regions above
the accumulation limit, keeps those containing a sample above the detection
limit, sums (or integrates, i.e. sums `y - limit_accumulation`) each
surviving region, and labels them. -/
def accumulate_detections (y la ld : List ℚ) (integrate : Bool) :
    Except String (List ℚ × List ℤ × List (ℕ × ℕ)) :=
  if (la.zip ld).any (fun p => decide (p.2 < p.1)) then
    .error "accumulate_detections: limit_accumulation > limit_detection."
  else
    let regions := get_contiguous_regions y la
    let dmask := (y.zip ld).map fun p => decide (p.2 < p.1)
    let surv := regions.filter fun r => segAny dmask r.1 r.2
    let yint := (y.zip la).map fun p => p.1 - p.2
    let sums := surv.map fun r => if integrate then segSum yint r.1 r.2 else segSum y r.1 r.2
    .ok (sums, label_regions surv y.length, surv)

/-- Legacy `nanopart.util.accumulate_detections(y, limit_accumulation,
limit_detection)` (sum mode, `return_regions=True`).  Differences from the
spcal version, mirrored from the source: the synthesized final end of a
signal that ends above threshold is `diff.size - 1`, i.e. the signal length
minus one (`runsAux` with `adj = 1`); a degenerate trailing region with
`start = end` is reduced by `np.*.reduceat` to the single element at
`start`; and the label pass closes only `regions[:-1]` when an end point
was synthesized. -/
def accumulate_detections_np (y la ld : List ℚ) :
    Except String (List ℚ × List ℤ × List (ℕ × ℕ)) :=
  if (la.zip ld).any (fun p => decide (p.2 < p.1)) then
    .error "limit_detection must be greater than limit_accumulation."
  else
    let mask := (y.zip la).map fun p => decide (p.2 < p.1)
    let endAdded := decide (mask.getLast? = some true)
    let regions := runsAux 1 0 none mask
    let dmask := (y.zip ld).map fun p => decide (p.2 < p.1)
    let surv := regions.filter fun r =>
      if r.1 < r.2 then segAny dmask r.1 r.2 else dmask.getD r.1 false
    let sums := surv.map fun r => if r.1 < r.2 then segSum y r.1 r.2 else y.getD r.1 0
    let ix : List ℤ := (List.range surv.length).map fun j => Int.ofNat j + 1
    let l1 := setAll (List.replicate y.length 0) ((surv.map Prod.fst).zip ix)
    let l2 :=
      if endAdded then
        setAll l1 ((surv.dropLast.map Prod.snd).zip (ix.dropLast.map fun z => -z))
      else
        setAll l1 ((surv.map Prod.snd).zip (ix.map fun z => -z))
    .ok (sums, cumsum l2, surv)

/-!
## Multi-channel reconciliation (`spcal.detection.combine_detections`)
-/

/-- One channel's output of `accumulate_detections`. -/
structure ChannelOut where
  sums : List ℚ
  labels : List ℤ
  regions : List (ℕ × ℕ)
deriving Repr

/-- The `any_label` pass of `combine_detections`: start from zeros and, for
each channel, set `1` wherever that channel's label is positive. -/
def anyLabelList (chans : List ChannelOut) (n : ℕ) : List ℤ :=
  chans.foldl (fun acc c => (acc.zip c.labels).map fun p => if 0 < p.2 then 1 else p.1)
    (List.replicate n 0)

/-- The interval-containment test of `combine_detections`:
`regions[name][:,0] >= all_regions[:,0,None] & regions[name][:,1] <= all_regions[:,1,None]`. -/
def containedB (r bigR : ℕ × ℕ) : Bool := decide (bigR.1 ≤ r.1) && decide (r.2 ≤ bigR.2)

/-- Per-channel combined sums: for each combined region, the sum of the
channel's original region sums whose region lies wholly inside it
(`np.sum(np.where(idx, sums[name], 0), axis=1)`). -/
def combinedSums (c : ChannelOut) (allRegions : List (ℕ × ℕ)) : List ℚ :=
  allRegions.map fun bigR =>
    ((c.regions.zip c.sums).map fun p => if containedB p.1 bigR then p.2 else 0).sum

/-- `spcal.detection.combine_detections(sums, labels, regions)`: union the
per-channel "in a region" masks, find contiguous regions of the union with
`get_contiguous_regions(any_label, 0)`, relabel, and attribute each
channel's original sums to combined regions by interval containment. -/
def combine_detections (chans : List ChannelOut) :
    List (List ℚ) × List ℤ × List (ℕ × ℕ) :=
  let n := (chans.head?.map fun c => c.labels.length).getD 0
  let anyL := anyLabelList chans n
  let allRegions := runsOf (anyL.map fun v => decide (0 < v))
  (chans.map fun c => combinedSums c allRegions, label_regions allRegions n, allRegions)

/-!
## Invariants of the contiguous-region scan
-/

theorem runsAux_zero_mem_bounds :
    ∀ (m : List Bool) (i : ℕ) (cur : Option ℕ), (∀ s, cur = some s → s < i) →
      ∀ r ∈ runsAux 0 i cur m,
        r.1 < r.2 ∧ r.2 ≤ i + m.length ∧
          (∀ s, cur = some s → s ≤ r.1) ∧ (cur = none → i ≤ r.1) := by
  intro m
  induction m with
  | nil =>
      intro i cur hcur r hr
      cases cur with
      | none => simp [runsAux] at hr
      | some s =>
          simp [runsAux] at hr
          subst hr
          exact ⟨hcur s rfl, by simp, fun s' hs' => by cases hs'; exact le_refl _, by simp⟩
  | cons b rest ih =>
      intro i cur hcur r hr
      simp only [List.length_cons]
      cases cur with
      | none =>
          by_cases hb : b
          · subst hb
            simp only [runsAux, if_true] at hr
            have h := ih (i + 1) (some i) (by intro s hs; cases hs; omega) r hr
            refine ⟨h.1, by have := h.2.1; omega, ?_, ?_⟩
            · intro s hs; cases hs
            · intro _
              exact le_trans (Nat.le_refl i) (h.2.2.1 i rfl)
          · simp only [runsAux, hb, if_false, Bool.false_eq_true] at hr
            have h := ih (i + 1) none (by intro s hs; cases hs) r hr
            refine ⟨h.1, by have := h.2.1; omega, ?_, ?_⟩
            · intro s hs; cases hs
            · intro _; have := h.2.2.2 rfl; omega
      | some s =>
          by_cases hb : b
          · subst hb
            simp only [runsAux, if_true] at hr
            have h := ih (i + 1) (some s)
              (by intro s' hs'; cases hs'; exact Nat.lt_succ_of_lt (hcur s rfl)) r hr
            refine ⟨h.1, by have := h.2.1; omega, ?_, ?_⟩
            · intro s' hs'; cases hs'; exact h.2.2.1 _ rfl
            · intro hn; cases hn
          · simp only [runsAux, hb, if_false, Bool.false_eq_true, List.mem_cons] at hr
            rcases hr with hr | hr
            · subst hr
              refine ⟨hcur s rfl, by omega, ?_, ?_⟩
              · intro s' hs'; cases hs'; exact le_refl _
              · intro hn; cases hn
            · have h := ih (i + 1) none (by intro s' hs'; cases hs') r hr
              refine ⟨h.1, by have := h.2.1; omega, ?_, ?_⟩
              · intro s' hs'; cases hs'
                have := h.2.2.2 rfl
                have := hcur _ rfl
                omega
              · intro hn; cases hn

theorem runsAux_zero_pairwise :
    ∀ (m : List Bool) (i : ℕ) (cur : Option ℕ), (∀ s, cur = some s → s < i) →
      (runsAux 0 i cur m).Pairwise fun a b => a.2 < b.1 := by
  intro m
  induction m with
  | nil =>
      intro i cur hcur
      cases cur <;> simp [runsAux]
  | cons b rest ih =>
      intro i cur hcur
      cases cur with
      | none =>
          by_cases hb : b
          · subst hb
            simp only [runsAux, if_true]
            exact ih (i + 1) (some i) (by intro s hs; cases hs; omega)
          · simp only [runsAux, hb, if_false, Bool.false_eq_true]
            exact ih (i + 1) none (by intro s hs; cases hs)
      | some s =>
          by_cases hb : b
          · subst hb
            simp only [runsAux, if_true]
            exact ih (i + 1) (some s)
              (by intro s' hs'; cases hs'; exact Nat.lt_succ_of_lt (hcur s rfl))
          · simp only [runsAux, hb, if_false, Bool.false_eq_true]
            refine List.Pairwise.cons ?_ (ih (i + 1) none (by intro s' hs'; cases hs'))
            intro r hr
            have h := runsAux_zero_mem_bounds rest (i + 1) none (by intro s' hs'; cases hs') r hr
            have := h.2.2.2 rfl
            omega

theorem runsAux_zero_cover :
    ∀ (m : List Bool) (i : ℕ) (cur : Option ℕ), (∀ s, cur = some s → s < i) →
      ∀ j : ℕ,
        (∃ r ∈ runsAux 0 i cur m, r.1 ≤ j ∧ j < r.2) ↔
          ((∃ s, cur = some s ∧ s ≤ j) ∧ j < i) ∨
            (∃ k, k < m.length ∧ m.getD k false = true ∧ j = i + k) := by
  intro m
  induction m with
  | nil =>
      intro i cur hcur j
      cases cur with
      | none => simp [runsAux]
      | some s =>
          simp only [runsAux, List.mem_singleton, List.length_nil]
          constructor
          · rintro ⟨r, rfl, h1, h2⟩
            exact Or.inl ⟨⟨s, rfl, h1⟩, h2⟩
          · rintro (⟨⟨s', hs', h1⟩, h2⟩ | ⟨k, hk, _⟩)
            · cases hs'; exact ⟨(s, i), rfl, h1, h2⟩
            · omega
  | cons b rest ih =>
      intro i cur hcur j
      cases cur with
      | none =>
          by_cases hb : b
          · subst hb
            simp only [runsAux, if_true]
            rw [ih (i + 1) (some i) (by intro s hs; cases hs; omega) j]
            constructor
            · rintro (⟨⟨s, hs, h1⟩, h2⟩ | ⟨k, hk, hm, hj⟩)
              · cases hs
                refine Or.inr ⟨0, by simp, by simp, by omega⟩
              · exact Or.inr ⟨k + 1, by simpa using hk, by simpa using hm, by omega⟩
            · rintro (⟨⟨s, hs, _⟩, _⟩ | ⟨k, hk, hm, hj⟩)
              · cases hs
              · cases k with
                | zero => exact Or.inl ⟨⟨i, rfl, by omega⟩, by omega⟩
                | succ k' =>
                    refine Or.inr ⟨k', by simpa using hk, by simpa using hm, by omega⟩
          · simp only [runsAux, hb, if_false, Bool.false_eq_true]
            rw [ih (i + 1) none (by intro s hs; cases hs) j]
            constructor
            · rintro (⟨⟨s, hs, _⟩, _⟩ | ⟨k, hk, hm, hj⟩)
              · cases hs
              · exact Or.inr ⟨k + 1, by simpa using hk, by simpa using hm, by omega⟩
            · rintro (⟨⟨s, hs, _⟩, _⟩ | ⟨k, hk, hm, hj⟩)
              · cases hs
              · cases k with
                | zero =>
                    simp only [List.getD_cons_zero] at hm
                    exact absurd hm (by simpa using hb)
                | succ k' =>
                    refine Or.inr ⟨k', by simpa using hk, by simpa using hm, by omega⟩
      | some s =>
          by_cases hb : b
          · subst hb
            simp only [runsAux, if_true]
            rw [ih (i + 1) (some s) (by intro s' hs'; cases hs'; exact Nat.lt_succ_of_lt (hcur s rfl)) j]
            constructor
            · rintro (⟨⟨s', hs', h1⟩, h2⟩ | ⟨k, hk, hm, hj⟩)
              · cases hs'
                rcases Nat.lt_or_ge j i with hji | hji
                · exact Or.inl ⟨⟨s, rfl, h1⟩, hji⟩
                · have : j = i := by omega
                  exact Or.inr ⟨0, by simp, by simp, by omega⟩
              · exact Or.inr ⟨k + 1, by simpa using hk, by simpa using hm, by omega⟩
            · rintro (⟨⟨s', hs', h1⟩, h2⟩ | ⟨k, hk, hm, hj⟩)
              · cases hs'
                exact Or.inl ⟨⟨s, rfl, h1⟩, by omega⟩
              · cases k with
                | zero =>
                    exact Or.inl ⟨⟨s, rfl, by have := hcur s rfl; omega⟩, by omega⟩
                | succ k' =>
                    refine Or.inr ⟨k', by simpa using hk, by simpa using hm, by omega⟩
          · simp only [runsAux, hb, if_false, Bool.false_eq_true, List.mem_cons]
            rw [show (∃ r, (r = (s, i) ∨ r ∈ runsAux 0 (i + 1) none rest) ∧ r.1 ≤ j ∧ j < r.2) ↔
                ((s ≤ j ∧ j < i) ∨ ∃ r ∈ runsAux 0 (i + 1) none rest, r.1 ≤ j ∧ j < r.2) by
              constructor
              · rintro ⟨r, hr | hr, h1, h2⟩
                · cases hr; exact Or.inl ⟨h1, h2⟩
                · exact Or.inr ⟨r, hr, h1, h2⟩
              · rintro (⟨h1, h2⟩ | ⟨r, hr, h1, h2⟩)
                · exact ⟨(s, i), Or.inl rfl, h1, h2⟩
                · exact ⟨r, Or.inr hr, h1, h2⟩]
            rw [ih (i + 1) none (by intro s' hs'; cases hs') j]
            constructor
            · rintro (⟨h1, h2⟩ | (⟨⟨s', hs', _⟩, _⟩ | ⟨k, hk, hm, hj⟩))
              · exact Or.inl ⟨⟨s, rfl, h1⟩, h2⟩
              · cases hs'
              · exact Or.inr ⟨k + 1, by simpa using hk, by simpa using hm, by omega⟩
            · rintro (⟨⟨s', hs', h1⟩, h2⟩ | ⟨k, hk, hm, hj⟩)
              · cases hs'; exact Or.inl ⟨h1, h2⟩
              · cases k with
                | zero =>
                    simp only [List.getD_cons_zero] at hm
                    exact absurd hm (by simpa using hb)
                | succ k' =>
                    exact Or.inr (Or.inr ⟨k', by simpa using hk, by simpa using hm, by omega⟩)

/-- Top-level coverage: a sample index is inside some run iff the mask is
true there. -/
theorem runsOf_cover (m : List Bool) (j : ℕ) :
    (∃ r ∈ runsOf m, r.1 ≤ j ∧ j < r.2) ↔ (j < m.length ∧ m.getD j false = true) := by
  rw [runsOf, runsAux_zero_cover m 0 none (by intro s hs; cases hs) j]
  constructor
  · rintro (⟨⟨s, hs, _⟩, _⟩ | ⟨k, hk, hm, hj⟩)
    · cases hs
    · subst hj; simp only [Nat.zero_add]; exact ⟨hk, hm⟩
  · rintro ⟨hj, hm⟩
    exact Or.inr ⟨j, hj, hm, by omega⟩

theorem runsOf_mem_bounds (m : List Bool) (r : ℕ × ℕ) (hr : r ∈ runsOf m) :
    r.1 < r.2 ∧ r.2 ≤ m.length :=
  ⟨(runsAux_zero_mem_bounds m 0 none (by intro s hs; cases hs) r hr).1, by
    simpa using (runsAux_zero_mem_bounds m 0 none (by intro s hs; cases hs) r hr).2.1⟩

theorem runsOf_pairwise (m : List Bool) :
    (runsOf m).Pairwise fun a b => a.2 < b.1 :=
  runsAux_zero_pairwise m 0 none (by intro s hs; cases hs)

/-- When the mask ends `true`, the scan synthesizes a final end equal to
`length - adj` (`adj = 0`: spcal, the signal length; `adj = 1`: legacy
nanopart, the signal length minus one). -/
theorem runsAux_last_of_true_end (adj : ℕ) :
    ∀ (m : List Bool) (i : ℕ) (cur : Option ℕ),
      (m.getLast? = some true ∨ (m = [] ∧ cur.isSome)) →
      ∃ s, (runsAux adj i cur m).getLast? = some (s, i + m.length - adj) := by
  intro m
  induction m with
  | nil =>
      intro i cur h
      rcases h with h | ⟨-, h⟩
      · simp at h
      · cases cur with
        | none => simp at h
        | some s => exact ⟨s, by simp [runsAux]⟩
  | cons b rest ih =>
      intro i cur h
      have hlast : (b :: rest).getLast? = some true := by
        rcases h with h | ⟨h, -⟩
        · exact h
        · cases h
      have hnil_b : rest = [] → b = true := by
        intro hnil
        rw [hnil] at hlast
        simpa using hlast
      have hrest2 : rest ≠ [] → rest.getLast? = some true := by
        intro hne
        cases rest with
        | nil => exact absurd rfl hne
        | cons c t => rw [← hlast]; simp [List.getLast?_cons_cons]
      have hrec : ∀ cur' : Option ℕ, (rest = [] → cur'.isSome) →
          ∃ s, (runsAux adj (i + 1) cur' rest).getLast? = some (s, i + (b :: rest).length - adj) := by
        intro cur' hcur'
        have h' : rest.getLast? = some true ∨ (rest = [] ∧ cur'.isSome) := by
          by_cases hne : rest = []
          · exact Or.inr ⟨hne, hcur' hne⟩
          · exact Or.inl (hrest2 hne)
        rcases ih (i + 1) cur' h' with ⟨s, hs⟩
        refine ⟨s, ?_⟩
        rw [hs]
        congr 2
        simp
        omega
      cases cur with
      | none =>
          cases b with
          | true =>
              simp only [runsAux, if_true]
              exact hrec (some i) (fun _ => rfl)
          | false =>
              have hne : rest ≠ [] := fun hnil => by simpa using hnil_b hnil
              simp only [runsAux, if_false, Bool.false_eq_true]
              exact hrec none (fun hnil => absurd hnil hne)
      | some s0 =>
          cases b with
          | true =>
              simp only [runsAux, if_true]
              exact hrec (some s0) (fun _ => rfl)
          | false =>
              have hne : rest ≠ [] := fun hnil => by simpa using hnil_b hnil
              simp only [runsAux, if_false, Bool.false_eq_true]
              rcases hrec none (fun hnil => absurd hnil hne) with ⟨s, hs⟩
              rcases List.exists_cons_of_ne_nil
                (show runsAux adj (i + 1) none rest ≠ [] from fun hnil => by
                  rw [hnil] at hs; simp at hs) with ⟨c, t, hct⟩
              refine ⟨s, ?_⟩
              rw [hct]
              rw [hct] at hs
              simpa [List.getLast?_cons_cons] using hs

/-- Totality of a pairwise relation over list members. -/
theorem pairwise_mem_total {α : Type} {rel : α → α → Prop} :
    ∀ {l : List α}, l.Pairwise rel → ∀ {a b}, a ∈ l → b ∈ l → a = b ∨ rel a b ∨ rel b a := by
  intro l
  induction l with
  | nil => intro _ a b ha; simp at ha
  | cons x t ih =>
      intro h a b ha hb
      have hx : ∀ c ∈ t, rel x c := (List.pairwise_cons.mp h).1
      have ht : t.Pairwise rel := (List.pairwise_cons.mp h).2
      rcases List.mem_cons.mp ha with ha' | ha'
      · rcases List.mem_cons.mp hb with hb' | hb'
        · exact Or.inl (ha'.trans hb'.symm)
        · exact Or.inr (Or.inl (ha' ▸ hx b hb'))
      · rcases List.mem_cons.mp hb with hb' | hb'
        · exact Or.inr (Or.inr (hb' ▸ hx a ha'))
        · exact ih ht ha' hb'

/-- A nonempty interval of true mask samples is wholly contained in exactly
one run. -/
theorem runsOf_unique_contain (m : List Bool) (s e : ℕ) (hse : s < e) (he : e ≤ m.length)
    (hcov : ∀ j, s ≤ j → j < e → m.getD j false = true) :
    ∃! r : ℕ × ℕ, r ∈ runsOf m ∧ r.1 ≤ s ∧ e ≤ r.2 := by
  have hs : ∃ r ∈ runsOf m, r.1 ≤ s ∧ s < r.2 :=
    (runsOf_cover m s).mpr ⟨by omega, hcov s (le_refl s) hse⟩
  rcases hs with ⟨r, hr, hr1, hr2⟩
  have hre : e ≤ r.2 := by
    by_contra hlt
    push_neg at hlt
    have h2 : ∃ r' ∈ runsOf m, r'.1 ≤ r.2 ∧ r.2 < r'.2 :=
      (runsOf_cover m r.2).mpr ⟨by omega, hcov r.2 (by omega) (by omega)⟩
    rcases h2 with ⟨r', hr', h1', h2'⟩
    rcases pairwise_mem_total (runsOf_pairwise m) hr hr' with heq | hrel | hrel
    · rw [heq] at h2'; omega
    · omega
    · have := (runsOf_mem_bounds m r hr).1
      omega
  refine ⟨r, ⟨hr, hr1, hre⟩, ?_⟩
  rintro r' ⟨hr', h1', h2'⟩
  rcases pairwise_mem_total (runsOf_pairwise m) hr' hr with heq | hrel | hrel
  · exact heq
  · omega
  · omega

/-!
## Pointwise characterisation of the label pass
-/

theorem setAll_length (ps : List (ℕ × ℤ)) : ∀ (l : List ℤ), (setAll l ps).length = l.length := by
  induction ps with
  | nil => intro l; rfl
  | cons p rest ih =>
      intro l
      show (setAll (l.set p.1 p.2) rest).length = l.length
      rw [ih, List.length_set]

theorem setAll_getElem?_not_mem (ps : List (ℕ × ℤ)) :
    ∀ (l : List ℤ) (k : ℕ), (∀ p ∈ ps, p.1 ≠ k) → (setAll l ps)[k]? = l[k]? := by
  induction ps with
  | nil => intro l k _; rfl
  | cons p rest ih =>
      intro l k hk
      show (setAll (l.set p.1 p.2) rest)[k]? = l[k]?
      rw [ih _ k (fun q hq => hk q (List.mem_cons_of_mem _ hq)),
        List.getElem?_set_ne (hk p (List.mem_cons_self _ _))]

theorem setAll_getElem?_mem (ps : List (ℕ × ℤ)) :
    ∀ (l : List ℤ) (k : ℕ) (v : ℤ), (ps.map Prod.fst).Nodup → (k, v) ∈ ps →
      k < l.length → (setAll l ps)[k]? = some v := by
  induction ps with
  | nil => intro l k v _ h; simp at h
  | cons p rest ih =>
      intro l k v hnd hmem hk
      show (setAll (l.set p.1 p.2) rest)[k]? = some v
      rcases List.mem_cons.mp hmem with heq | hmem'
      · have hp : p = (k, v) := heq.symm
        subst hp
        have hknot : ∀ q ∈ rest, q.1 ≠ k := by
          intro q hq hcon
          have h1 : (k, v).1 ∉ rest.map Prod.fst := (List.nodup_cons.mp hnd).1
          have h2 : q.1 ∈ rest.map Prod.fst := List.mem_map_of_mem Prod.fst hq
          rw [hcon] at h2
          exact h1 h2
        rw [setAll_getElem?_not_mem rest _ k hknot, List.getElem?_set_self hk]
      · exact ih _ k v (List.nodup_cons.mp hnd).2 hmem' (by rw [List.length_set]; exact hk)

theorem mem_zip_iff_getElem {α β : Type} {l1 : List α} {l2 : List β} {a : α} {b : β} :
    (a, b) ∈ l1.zip l2 ↔ ∃ i : ℕ, l1[i]? = some a ∧ l2[i]? = some b := by
  constructor
  · intro h
    rcases List.mem_iff_getElem.mp h with ⟨i, hi, he⟩
    refine ⟨i, ?_⟩
    have : (l1.zip l2)[i]? = some (a, b) := by
      rw [List.getElem?_eq_getElem hi, he]
    have h2 := List.getElem?_zip_eq_some.mp this
    exact ⟨h2.1, h2.2⟩
  · rintro ⟨i, h1, h2⟩
    have : (l1.zip l2)[i]? = some (a, b) := List.getElem?_zip_eq_some.mpr ⟨h1, h2⟩
    rcases List.getElem?_eq_some.mp this with ⟨h, he⟩
    exact he ▸ List.getElem_mem h

theorem cumsumFrom_length (l : List ℤ) : ∀ acc, (cumsumFrom acc l).length = l.length := by
  induction l with
  | nil => intro acc; rfl
  | cons x t ih => intro acc; simp [cumsumFrom, ih]

theorem cumsumFrom_getElem? (l : List ℤ) :
    ∀ (acc : ℤ) (i : ℕ), i < l.length →
      (cumsumFrom acc l)[i]? = some (acc + ∑ k ∈ Finset.range (i + 1), l.getD k 0) := by
  induction l with
  | nil => intro acc i hi; simp at hi
  | cons x t ih =>
      intro acc i hi
      cases i with
      | zero => simp [cumsumFrom, List.getD_cons_zero]
      | succ i' =>
          show (cumsumFrom acc (x :: t))[i' + 1]? = _
          rw [show cumsumFrom acc (x :: t) = (acc + x) :: cumsumFrom (acc + x) t from rfl,
            List.getElem?_cons_succ, ih (acc + x) i' (by simpa using hi)]
          congr 1
          conv_rhs => rw [Finset.sum_range_succ']
          simp only [List.getD_cons_succ, List.getD_cons_zero]
          ring_nf

theorem cumsum_getD (l : List ℤ) (i : ℕ) (hi : i < l.length) :
    (cumsum l).getD i 0 = ∑ k ∈ Finset.range (i + 1), l.getD k 0 := by
  rw [List.getD_eq_getElem?_getD, cumsum, cumsumFrom_getElem? l 0 i hi]
  simp

theorem cumsum_length (l : List ℤ) : (cumsum l).length = l.length := cumsumFrom_length l 0

theorem filter_lt_isPrefix_of_sorted :
    ∀ (l : List ℕ), l.Pairwise (· < ·) → ∀ (n : ℕ),
      l.filter (fun e => decide (e < n)) <+: l := by
  intro l
  induction l with
  | nil => intro _ n; simp
  | cons a t ih =>
      intro h n
      by_cases ha : a < n
      · rw [List.filter_cons_of_pos (by simpa using ha)]
        exact List.cons_prefix_cons.mpr ⟨rfl, ih (List.pairwise_cons.mp h).2 n⟩
      · rw [List.filter_cons_of_neg (by simpa using ha)]
        have : t.filter (fun e => decide (e < n)) = [] := by
          rw [List.filter_eq_nil_iff]
          intro x hx
          have := (List.pairwise_cons.mp h).1 x hx
          simp only [decide_eq_true_eq]
          omega
        rw [this]
        exact List.nil_prefix

/-- Start of the `j`-th region (0 past the end). -/
def rStart (rs : List (ℕ × ℕ)) (j : ℕ) : ℕ := (rs.getD j (0, 0)).1

/-- End of the `j`-th region (0 past the end). -/
def rEnd (rs : List (ℕ × ℕ)) (j : ℕ) : ℕ := (rs.getD j (0, 0)).2

/-- Well-formed region list: nonempty intervals within `[0, n]`, strictly
ordered with gaps (as produced by the contiguous-region scan). -/
def RegionsWF (rs : List (ℕ × ℕ)) (n : ℕ) : Prop :=
  (∀ r ∈ rs, r.1 < r.2 ∧ r.2 ≤ n) ∧ rs.Pairwise fun a b => a.2 < b.1

theorem RegionsWF.start_lt_end {rs : List (ℕ × ℕ)} {n : ℕ} (h : RegionsWF rs n)
    {j : ℕ} (hj : j < rs.length) : rStart rs j < rEnd rs j := by
  have := h.1 (rs.getD j (0, 0)) (by rw [List.getD_eq_getElem _ _ hj]; exact List.getElem_mem hj)
  exact this.1

theorem RegionsWF.end_le {rs : List (ℕ × ℕ)} {n : ℕ} (h : RegionsWF rs n)
    {j : ℕ} (hj : j < rs.length) : rEnd rs j ≤ n := by
  have := h.1 (rs.getD j (0, 0)) (by rw [List.getD_eq_getElem _ _ hj]; exact List.getElem_mem hj)
  exact this.2

theorem RegionsWF.end_lt_start {rs : List (ℕ × ℕ)} {n : ℕ} (h : RegionsWF rs n)
    {j1 j2 : ℕ} (hlt : j1 < j2) (hj2 : j2 < rs.length) : rEnd rs j1 < rStart rs j2 := by
  have h1 : j1 < rs.length := lt_trans hlt hj2
  have := List.pairwise_iff_getElem.mp h.2 j1 j2 h1 hj2 hlt
  rw [rEnd, rStart, List.getD_eq_getElem _ _ h1, List.getD_eq_getElem _ _ hj2]
  exact this

theorem RegionsWF.start_mono {rs : List (ℕ × ℕ)} {n : ℕ} (h : RegionsWF rs n)
    {j1 j2 : ℕ} (hlt : j1 < j2) (hj2 : j2 < rs.length) : rStart rs j1 < rStart rs j2 :=
  lt_trans (h.start_lt_end (lt_trans hlt hj2)) (h.end_lt_start hlt hj2)

theorem RegionsWF.end_mono {rs : List (ℕ × ℕ)} {n : ℕ} (h : RegionsWF rs n)
    {j1 j2 : ℕ} (hlt : j1 < j2) (hj2 : j2 < rs.length) : rEnd rs j1 < rEnd rs j2 :=
  lt_trans (h.end_lt_start hlt hj2) (h.start_lt_end hj2)

theorem RegionsWF.runsOf (m : List Bool) : RegionsWF (runsOf m) m.length :=
  ⟨fun r hr => runsOf_mem_bounds m r hr, runsOf_pairwise m⟩

theorem RegionsWF.filter {rs : List (ℕ × ℕ)} {n : ℕ} (h : RegionsWF rs n)
    (p : ℕ × ℕ → Bool) : RegionsWF (rs.filter p) n :=
  ⟨fun r hr => h.1 r (List.mem_filter.mp hr).1, h.2.filter p⟩

theorem RegionsWF.ends_pairwise {rs : List (ℕ × ℕ)} {n : ℕ} (h : RegionsWF rs n) :
    (rs.map Prod.snd).Pairwise (· < ·) := by
  rw [List.pairwise_map]
  refine h.2.imp_of_mem ?_
  intro a b ha _ hab
  exact lt_trans hab (h.1 b (by assumption)).1

theorem RegionsWF.starts_pairwise {rs : List (ℕ × ℕ)} {n : ℕ} (h : RegionsWF rs n) :
    (rs.map Prod.fst).Pairwise (· < ·) := by
  rw [List.pairwise_map]
  refine h.2.imp_of_mem ?_
  intro a b ha _ hab
  exact lt_of_lt_of_le (lt_trans (h.1 a ha).1 hab) (le_refl _)

theorem labelIx_length (rs : List (ℕ × ℕ)) : (labelIx rs).length = rs.length := by
  simp [labelIx]

theorem labelIx_getElem? (rs : List (ℕ × ℕ)) {j : ℕ} (hj : j < rs.length) :
    (labelIx rs)[j]? = some ((j : ℤ) + 1) := by
  rw [labelIx, List.getElem?_map, List.getElem?_range hj]
  rfl

theorem labelEndsF_length_le (rs : List (ℕ × ℕ)) (n : ℕ) :
    (labelEndsF rs n).length ≤ rs.length := by
  have := List.length_filter_le (fun e => decide (e < n)) (rs.map Prod.snd)
  simpa [labelEndsF] using this

theorem labelEndsF_getElem? {rs : List (ℕ × ℕ)} {n : ℕ} (h : RegionsWF rs n)
    {t : ℕ} (ht : t < (labelEndsF rs n).length) :
    (labelEndsF rs n)[t]? = some (rEnd rs t) := by
  have hpre : labelEndsF rs n <+: rs.map Prod.snd :=
    filter_lt_isPrefix_of_sorted (rs.map Prod.snd) h.ends_pairwise n
  have htm : t < (rs.map Prod.snd).length := lt_of_lt_of_le ht (by
    simpa [labelEndsF] using labelEndsF_length_le rs n)
  rw [List.getElem?_eq_getElem ht, hpre.getElem ht]
  have htm' : t < rs.length := by simpa using htm
  rw [List.getElem_map]
  congr 1
  rw [rEnd, List.getD_eq_getElem _ _ htm']

theorem labelEndsF_idx {rs : List (ℕ × ℕ)} {n : ℕ} (h : RegionsWF rs n)
    {j : ℕ} (hj : j < rs.length) (hlt : rEnd rs j < n) :
    j < (labelEndsF rs n).length := by
  by_contra hge
  push_neg at hge
  -- `rEnd rs j` is kept by the filter, so it occurs in `labelEndsF` at some
  -- position `t < length ≤ j`; but ends are strictly increasing.
  have hmem : rEnd rs j ∈ labelEndsF rs n := by
    rw [labelEndsF, List.mem_filter]
    constructor
    · rw [rEnd, List.getD_eq_getElem _ _ hj, ← List.getElem_map Prod.snd]
      exact List.getElem_mem (by simpa using hj)
    · simpa using hlt
  rcases List.mem_iff_getElem.mp hmem with ⟨t, ht, hte⟩
  have := labelEndsF_getElem? h ht
  rw [List.getElem?_eq_getElem ht, hte] at this
  have hte' : rEnd rs t = rEnd rs j := by
    have := this.symm
    injection this
  have htj : t < j := lt_of_lt_of_le ht hge
  have := h.end_mono htj hj
  omega

theorem labelPairsStart_mem_iff {rs : List (ℕ × ℕ)} {k : ℕ} {v : ℤ} :
    (k, v) ∈ labelPairsStart rs ↔ ∃ j < rs.length, rStart rs j = k ∧ v = (j : ℤ) + 1 := by
  rw [labelPairsStart, mem_zip_iff_getElem]
  constructor
  · rintro ⟨j, h1, h2⟩
    have hj : j < rs.length := by
      by_contra hge
      push_neg at hge
      rw [List.getElem?_eq_none (by simpa using hge)] at h1
      cases h1
    refine ⟨j, hj, ?_, ?_⟩
    · rw [List.getElem?_map] at h1
      rw [List.getElem?_eq_getElem hj] at h1
      simp only [Option.map_some'] at h1
      injection h1 with h1
      rw [rStart, List.getD_eq_getElem _ _ hj, h1]
    · rw [labelIx_getElem? rs hj] at h2
      injection h2 with h2
      exact h2.symm
  · rintro ⟨j, hj, hk, hv⟩
    refine ⟨j, ?_, ?_⟩
    · rw [List.getElem?_map, List.getElem?_eq_getElem hj]
      simp only [Option.map_some']
      congr 1
      rw [← hk, rStart, List.getD_eq_getElem _ _ hj]
    · rw [labelIx_getElem? rs hj, hv]

theorem labelPairsEnd_mem_iff {rs : List (ℕ × ℕ)} {n : ℕ} (h : RegionsWF rs n) {k : ℕ} {v : ℤ} :
    (k, v) ∈ labelPairsEnd rs n ↔
      ∃ j < (labelEndsF rs n).length, rEnd rs j = k ∧ v = -((j : ℤ) + 1) := by
  rw [labelPairsEnd, mem_zip_iff_getElem]
  constructor
  · rintro ⟨j, h1, h2⟩
    have hj : j < (labelEndsF rs n).length := by
      by_contra hge
      push_neg at hge
      rw [List.getElem?_eq_none (by simpa using hge)] at h1
      cases h1
    refine ⟨j, hj, ?_, ?_⟩
    · rw [labelEndsF_getElem? h hj] at h1
      exact Option.some.inj h1
    · have hjr : j < rs.length := lt_of_lt_of_le hj (labelEndsF_length_le rs n)
      rw [List.getElem?_map, List.getElem?_take, if_pos hj, labelIx_getElem? rs hjr] at h2
      simp only [Option.map_some'] at h2
      injection h2 with h2
      exact h2.symm
  · rintro ⟨j, hj, hk, hv⟩
    have hjr : j < rs.length := lt_of_lt_of_le hj (labelEndsF_length_le rs n)
    refine ⟨j, ?_, ?_⟩
    · rw [labelEndsF_getElem? h hj, hk]
    · rw [List.getElem?_map, List.getElem?_take, if_pos hj, labelIx_getElem? rs hjr]
      simp only [Option.map_some']
      rw [hv]

theorem labelPairsStart_keys_nodup {rs : List (ℕ × ℕ)} {n : ℕ} (h : RegionsWF rs n) :
    ((labelPairsStart rs).map Prod.fst).Nodup := by
  rw [labelPairsStart, List.map_fst_zip _ _ (by rw [labelIx_length]; simp)]
  exact (h.starts_pairwise.imp fun hab => Nat.ne_of_lt hab)

theorem labelPairsEnd_keys_nodup {rs : List (ℕ × ℕ)} {n : ℕ} (h : RegionsWF rs n) :
    ((labelPairsEnd rs n).map Prod.fst).Nodup := by
  rw [labelPairsEnd, List.map_fst_zip _ _ (by
    simp only [List.length_map, List.length_take, labelIx_length]
    exact le_min (le_refl _) (labelEndsF_length_le rs n))]
  exact ((h.ends_pairwise.filter _).imp fun hab => Nat.ne_of_lt hab)

theorem labelPre_length (rs : List (ℕ × ℕ)) (n : ℕ) : (labelPre rs n).length = n := by
  rw [labelPre, setAll_length, setAll_length, List.length_replicate]

theorem label_regions_length (rs : List (ℕ × ℕ)) (n : ℕ) : (label_regions rs n).length = n := by
  rw [label_regions, cumsum_length, labelPre_length]

/-- The pre-cumsum label array holds `+(j+1)` at the `j`-th region start,
`-(j+1)` at the `j`-th kept region end, and `0` elsewhere, expressed as a
difference of indicator sums. -/
theorem labelPre_getD {rs : List (ℕ × ℕ)} {n : ℕ} (h : RegionsWF rs n)
    {k : ℕ} (hk : k < n) :
    (labelPre rs n).getD k 0 =
      (∑ j ∈ Finset.range rs.length, if rStart rs j = k then (j : ℤ) + 1 else 0)
        - (∑ j ∈ Finset.range rs.length,
            if rEnd rs j = k ∧ rEnd rs j < n then (j : ℤ) + 1 else 0) := by
  have hlen1 : (setAll (List.replicate n 0) (labelPairsStart rs)).length = n := by
    rw [setAll_length, List.length_replicate]
  rw [List.getD_eq_getElem?_getD, labelPre]
  by_cases hE : ∃ j, j < rs.length ∧ rEnd rs j = k ∧ rEnd rs j < n
  · rcases hE with ⟨j0, hj0, hj0k, hj0n⟩
    have hjF : j0 < (labelEndsF rs n).length := labelEndsF_idx h hj0 hj0n
    have hmem : (k, -((j0 : ℤ) + 1)) ∈ labelPairsEnd rs n :=
      (labelPairsEnd_mem_iff h).mpr ⟨j0, hjF, hj0k, rfl⟩
    rw [setAll_getElem?_mem _ _ _ _ (labelPairsEnd_keys_nodup h) hmem (by rw [hlen1]; exact hk)]
    have hA : (∑ j ∈ Finset.range rs.length, if rStart rs j = k then (j : ℤ) + 1 else 0) = 0 := by
      refine Finset.sum_eq_zero ?_
      intro j hj
      rw [if_neg]
      intro hcon
      rcases Nat.lt_trichotomy j j0 with hlt | heq | hgt
      · have h1 : rStart rs j < rStart rs j0 := h.start_mono hlt hj0
        have h2 : rStart rs j0 < rEnd rs j0 := h.start_lt_end hj0
        omega
      · subst heq
        have := h.start_lt_end hj0
        omega
      · have := h.end_lt_start hgt (Finset.mem_range.mp hj)
        omega
    have hB : (∑ j ∈ Finset.range rs.length,
        if rEnd rs j = k ∧ rEnd rs j < n then (j : ℤ) + 1 else 0) = (j0 : ℤ) + 1 := by
      rw [Finset.sum_eq_single j0]
      · rw [if_pos ⟨hj0k, hj0n⟩]
      · intro j hj hne
        rw [if_neg]
        rintro ⟨hcon, -⟩
        rcases Nat.lt_trichotomy j j0 with hlt | heq | hgt
        · have := h.end_mono hlt hj0; omega
        · exact hne heq
        · have := h.end_mono hgt (Finset.mem_range.mp hj); omega
      · intro hcon
        exact absurd (Finset.mem_range.mpr hj0) hcon
    rw [hA, hB]
    simp
  · push_neg at hE
    have hnotE : ∀ p ∈ labelPairsEnd rs n, p.1 ≠ k := by
      rintro ⟨k', v⟩ hp hcon
      rcases (labelPairsEnd_mem_iff h).mp hp with ⟨j, hj, hjk, -⟩
      have hjr : j < rs.length := lt_of_lt_of_le hj (labelEndsF_length_le rs n)
      have hkey : rEnd rs j = k := by
        simp only at hcon
        rw [hjk, hcon]
      have hlt : rEnd rs j < n := by
        have hgetE := labelEndsF_getElem? h hj
        have hmemF : rEnd rs j ∈ labelEndsF rs n := by
          rcases List.getElem?_eq_some.mp hgetE with ⟨hh, he⟩
          exact he ▸ List.getElem_mem hh
        rcases List.mem_filter.mp hmemF with ⟨-, hlt'⟩
        simpa using hlt'
      have := hE j hjr hkey
      omega
    rw [setAll_getElem?_not_mem _ _ _ hnotE]
    have hB : (∑ j ∈ Finset.range rs.length,
        if rEnd rs j = k ∧ rEnd rs j < n then (j : ℤ) + 1 else 0) = 0 := by
      refine Finset.sum_eq_zero ?_
      intro j hj
      rw [if_neg]
      rintro ⟨h1, h2⟩
      have := hE j (Finset.mem_range.mp hj) h1
      omega
    rw [hB, sub_zero]
    by_cases hS : ∃ j, j < rs.length ∧ rStart rs j = k
    · rcases hS with ⟨j0, hj0, hj0k⟩
      have hmem : (k, (j0 : ℤ) + 1) ∈ labelPairsStart rs :=
        labelPairsStart_mem_iff.mpr ⟨j0, hj0, hj0k, rfl⟩
      rw [setAll_getElem?_mem _ _ _ _ (labelPairsStart_keys_nodup h) hmem
        (by rw [List.length_replicate]; exact hk)]
      rw [Finset.sum_eq_single j0]
      · rw [if_pos hj0k]
        rfl
      · intro j hj hne
        rw [if_neg]
        intro hcon
        rcases Nat.lt_trichotomy j j0 with hlt | heq | hgt
        · have := h.start_mono hlt hj0; omega
        · exact hne heq
        · have := h.start_mono hgt (Finset.mem_range.mp hj); omega
      · intro hcon
        exact absurd (Finset.mem_range.mpr hj0) hcon
    · push_neg at hS
      have hnotS : ∀ p ∈ labelPairsStart rs, p.1 ≠ k := by
        rintro ⟨k', v⟩ hp hcon
        rcases labelPairsStart_mem_iff.mp hp with ⟨j, hj, hjk, -⟩
        subst hcon
        exact hS j hj hjk
      rw [setAll_getElem?_not_mem _ _ _ hnotS, List.getElem?_replicate, if_pos hk]
      have hA : (∑ j ∈ Finset.range rs.length, if rStart rs j = k then (j : ℤ) + 1 else 0) = 0 := by
        refine Finset.sum_eq_zero ?_
        intro j hj
        rw [if_neg]
        intro hcon
        exact hS j (Finset.mem_range.mp hj) hcon
      rw [hA]
      rfl

/-- The label array evaluates, at every in-range index, to the indicator
sum over regions containing that index. -/
theorem label_regions_getD_eq_sum {rs : List (ℕ × ℕ)} {n : ℕ} (h : RegionsWF rs n)
    {i : ℕ} (hi : i < n) :
    (label_regions rs n).getD i 0 =
      ∑ j ∈ Finset.range rs.length,
        if rStart rs j ≤ i ∧ i < rEnd rs j then (j : ℤ) + 1 else 0 := by
  rw [label_regions, cumsum_getD _ i (by rw [labelPre_length]; exact hi)]
  have hstep : ∀ k ∈ Finset.range (i + 1),
      (labelPre rs n).getD k 0 =
        (∑ j ∈ Finset.range rs.length, if rStart rs j = k then (j : ℤ) + 1 else 0)
          - (∑ j ∈ Finset.range rs.length,
              if rEnd rs j = k ∧ rEnd rs j < n then (j : ℤ) + 1 else 0) := by
    intro k hk
    exact labelPre_getD h (lt_of_lt_of_le (Finset.mem_range.mp hk) hi)
  rw [Finset.sum_congr rfl hstep, Finset.sum_sub_distrib, Finset.sum_comm, Finset.sum_comm
    (s := Finset.range (i + 1))]
  rw [← Finset.sum_sub_distrib]
  refine Finset.sum_congr rfl ?_
  intro j hj
  have hj' : j < rs.length := Finset.mem_range.mp hj
  have hA : (∑ k ∈ Finset.range (i + 1), if rStart rs j = k then (j : ℤ) + 1 else 0)
      = if rStart rs j ≤ i then (j : ℤ) + 1 else 0 := by
    rw [Finset.sum_ite_eq (Finset.range (i + 1)) (rStart rs j) (fun _ => (j : ℤ) + 1)]
    congr 1
    simp [Nat.lt_succ_iff]
  have hB : (∑ k ∈ Finset.range (i + 1), if rEnd rs j = k ∧ rEnd rs j < n then (j : ℤ) + 1 else 0)
      = if rEnd rs j ≤ i then (j : ℤ) + 1 else 0 := by
    by_cases hn : rEnd rs j < n
    · have : ∀ k, (rEnd rs j = k ∧ rEnd rs j < n) = (rEnd rs j = k) := by
        intro k
        simp [hn]
      simp only [this]
      rw [Finset.sum_ite_eq (Finset.range (i + 1)) (rEnd rs j) (fun _ => (j : ℤ) + 1)]
      congr 1
      simp [Nat.lt_succ_iff]
    · have h1 : ∀ k ∈ Finset.range (i + 1),
          (if rEnd rs j = k ∧ rEnd rs j < n then (j : ℤ) + 1 else 0) = 0 := by
        intro k _
        rw [if_neg]
        rintro ⟨-, hcon⟩
        exact hn hcon
      rw [Finset.sum_congr rfl h1, Finset.sum_const, smul_zero, if_neg]
      omega
  rw [hA, hB]
  have hse := h.start_lt_end hj'
  split_ifs <;> omega

/-- Inside the `j`-th region the label array reads `j + 1`. -/
theorem label_regions_getD_of_mem {rs : List (ℕ × ℕ)} {n : ℕ} (h : RegionsWF rs n)
    {j : ℕ} (hj : j < rs.length) {i : ℕ} (h1 : rStart rs j ≤ i) (h2 : i < rEnd rs j) :
    (label_regions rs n).getD i 0 = (j : ℤ) + 1 := by
  have hi : i < n := lt_of_lt_of_le h2 (h.end_le hj)
  rw [label_regions_getD_eq_sum h hi, Finset.sum_eq_single j]
  · rw [if_pos ⟨h1, h2⟩]
  · intro j' hj' hne
    rw [if_neg]
    rintro ⟨h1', h2'⟩
    rcases Nat.lt_trichotomy j' j with hlt | heq | hgt
    · have := h.end_lt_start hlt hj
      omega
    · exact hne heq
    · have := h.end_lt_start hgt (Finset.mem_range.mp hj')
      omega
  · intro hcon
    exact absurd (Finset.mem_range.mpr hj) hcon

/-- Outside every region the label array reads `0`. -/
theorem label_regions_getD_of_not_mem {rs : List (ℕ × ℕ)} {n : ℕ} (h : RegionsWF rs n)
    {i : ℕ} (hi : i < n) (hout : ∀ j, j < rs.length → ¬(rStart rs j ≤ i ∧ i < rEnd rs j)) :
    (label_regions rs n).getD i 0 = 0 := by
  rw [label_regions_getD_eq_sum h hi]
  refine Finset.sum_eq_zero ?_
  intro j hj
  rw [if_neg (hout j (Finset.mem_range.mp hj))]

/-!
## Facts about `accumulate_detections`
-/

theorem RegionsWF.mono {rs : List (ℕ × ℕ)} {n n' : ℕ} (h : RegionsWF rs n) (hle : n ≤ n') :
    RegionsWF rs n' :=
  ⟨fun r hr => ⟨(h.1 r hr).1, le_trans (h.1 r hr).2 hle⟩, h.2⟩

/-- The threshold mask of a signal against a per-sample limit. -/
def sigMask (y lim : List ℚ) : List Bool := (y.zip lim).map fun p => decide (p.2 < p.1)

theorem sigMask_length {y lim : List ℚ} (h : lim.length = y.length) :
    (sigMask y lim).length = y.length := by
  simp [sigMask, h]

theorem get_contiguous_regions_eq (y lim : List ℚ) :
    get_contiguous_regions y lim = runsOf (sigMask y lim) := rfl

/-- The surviving regions of `accumulate_detections`. -/
def accSurv (y la ld : List ℚ) : List (ℕ × ℕ) :=
  (get_contiguous_regions y la).filter fun r => segAny (sigMask y ld) r.1 r.2

/-- The per-region sums of `accumulate_detections`. -/
def accSums (y la ld : List ℚ) (integrate : Bool) : List ℚ :=
  (accSurv y la ld).map fun r =>
    if integrate then segSum ((y.zip la).map fun p => p.1 - p.2) r.1 r.2 else segSum y r.1 r.2

theorem accumulate_detections_ok_eq (y la ld : List ℚ) (ig : Bool)
    (h : ((la.zip ld).any fun p => decide (p.2 < p.1)) = false) :
    accumulate_detections y la ld ig =
      Except.ok (accSums y la ld ig, label_regions (accSurv y la ld) y.length, accSurv y la ld) := by
  rw [accumulate_detections, if_neg (by rw [h]; exact Bool.false_ne_true)]
  rfl

theorem accSurv_wf {y la : List ℚ} (ld : List ℚ) (hla : la.length = y.length) :
    RegionsWF (accSurv y la ld) y.length := by
  have h1 : RegionsWF (runsOf (sigMask y la)) (sigMask y la).length := RegionsWF.runsOf _
  rw [sigMask_length hla] at h1
  exact (h1.filter _)

theorem zip_any_lt_iff {la ld : List ℚ} :
    ((la.zip ld).any fun p => decide (p.2 < p.1)) = true ↔
      ∃ i : ℕ, i < la.length ∧ i < ld.length ∧ ld.getD i 0 < la.getD i 0 := by
  rw [List.any_eq_true]
  constructor
  · rintro ⟨⟨a, b⟩, hmem, hab⟩
    rcases mem_zip_iff_getElem.mp hmem with ⟨i, h1, h2⟩
    rcases List.getElem?_eq_some.mp h1 with ⟨hi1, he1⟩
    rcases List.getElem?_eq_some.mp h2 with ⟨hi2, he2⟩
    refine ⟨i, hi1, hi2, ?_⟩
    rw [List.getD_eq_getElem _ _ hi1, List.getD_eq_getElem _ _ hi2, he1, he2]
    simpa using hab
  · rintro ⟨i, hi1, hi2, hlt⟩
    refine ⟨(la.getD i 0, ld.getD i 0), ?_, by simpa using hlt⟩
    apply mem_zip_iff_getElem.mpr
    refine ⟨i, ?_, ?_⟩
    · rw [List.getD_eq_getElem _ _ hi1, List.getElem?_eq_getElem hi1]
    · rw [List.getD_eq_getElem _ _ hi2, List.getElem?_eq_getElem hi2]

/-- C3: `accumulate_detections` (both the spcal and the legacy nanopart
version) fails with the threshold-ordering error if and only if the
accumulation threshold exceeds the detection threshold at some sample; when
the elementwise precondition holds it returns a result and never raises. -/
theorem claim_C3_threshold_ordering (y la ld : List ℚ) (ig : Bool)
    (hla : la.length = y.length) (hld : ld.length = y.length) :
    ((accumulate_detections y la ld ig =
        Except.error "accumulate_detections: limit_accumulation > limit_detection.") ↔
      ∃ i, i < y.length ∧ ld.getD i 0 < la.getD i 0) ∧
    ((accumulate_detections_np y la ld =
        Except.error "limit_detection must be greater than limit_accumulation.") ↔
      ∃ i, i < y.length ∧ ld.getD i 0 < la.getD i 0) ∧
    ((¬∃ i, i < y.length ∧ ld.getD i 0 < la.getD i 0) →
      (∃ out, accumulate_detections y la ld ig = Except.ok out) ∧
      ∃ out, accumulate_detections_np y la ld = Except.ok out) := by
  have hiff : ((la.zip ld).any fun p => decide (p.2 < p.1)) = true ↔
      ∃ i, i < y.length ∧ ld.getD i 0 < la.getD i 0 := by
    rw [zip_any_lt_iff]
    constructor
    · rintro ⟨i, h1, h2, h3⟩
      exact ⟨i, by omega, h3⟩
    · rintro ⟨i, h1, h3⟩
      exact ⟨i, by omega, by omega, h3⟩
  refine ⟨?_, ?_, ?_⟩
  · rw [← hiff]
    constructor
    · intro hacc
      by_contra hguard
      have hfalse : ((la.zip ld).any fun p => decide (p.2 < p.1)) = false :=
        Bool.eq_false_iff.mpr hguard
      rw [accumulate_detections_ok_eq y la ld ig hfalse] at hacc
      cases hacc
    · intro hguard
      rw [accumulate_detections, if_pos hguard]
  · rw [← hiff]
    constructor
    · intro hacc
      by_contra hguard
      have hfalse : ((la.zip ld).any fun p => decide (p.2 < p.1)) = false :=
        Bool.eq_false_iff.mpr hguard
      rw [accumulate_detections_np, if_neg (by rw [hfalse]; exact Bool.false_ne_true)] at hacc
      cases hacc
    · intro hguard
      rw [accumulate_detections_np, if_pos hguard]
  · intro hno
    have hfalse : ((la.zip ld).any fun p => decide (p.2 < p.1)) = false :=
      Bool.eq_false_iff.mpr (fun hcon => hno (hiff.mp hcon))
    constructor
    · exact ⟨_, accumulate_detections_ok_eq y la ld ig hfalse⟩
    · rw [accumulate_detections_np, if_neg (by rw [hfalse]; exact Bool.false_ne_true)]
      exact ⟨_, rfl⟩

theorem claim_C3_witness :
    (([(1 : ℚ), 1]).length = ([(0 : ℚ), 3]).length) ∧
    (([(2 : ℚ), 2]).length = ([(0 : ℚ), 3]).length) ∧
    (((accumulate_detections [0, 3] [1, 1] [2, 2] false =
        Except.error "accumulate_detections: limit_accumulation > limit_detection.") ↔
      ∃ i, i < ([(0 : ℚ), 3]).length ∧ ([(2 : ℚ), 2]).getD i 0 < ([(1 : ℚ), 1]).getD i 0) ∧
    ((accumulate_detections_np [0, 3] [1, 1] [2, 2] =
        Except.error "limit_detection must be greater than limit_accumulation.") ↔
      ∃ i, i < ([(0 : ℚ), 3]).length ∧ ([(2 : ℚ), 2]).getD i 0 < ([(1 : ℚ), 1]).getD i 0) ∧
    ((¬∃ i, i < ([(0 : ℚ), 3]).length ∧ ([(2 : ℚ), 2]).getD i 0 < ([(1 : ℚ), 1]).getD i 0) →
      (∃ out, accumulate_detections [0, 3] [1, 1] [2, 2] false = Except.ok out) ∧
      ∃ out, accumulate_detections_np [0, 3] [1, 1] [2, 2] = Except.ok out)) :=
  ⟨by decide, by decide,
    claim_C3_threshold_ordering [0, 3] [1, 1] [2, 2] false (by decide) (by decide)⟩

theorem accumulate_detections_ok_inv (y la ld : List ℚ) (ig : Bool)
    (out : List ℚ × List ℤ × List (ℕ × ℕ))
    (h : accumulate_detections y la ld ig = Except.ok out) :
    out = (accSums y la ld ig, label_regions (accSurv y la ld) y.length, accSurv y la ld) := by
  by_cases hg : ((la.zip ld).any fun p => decide (p.2 < p.1)) = true
  · rw [accumulate_detections, if_pos hg] at h
    cases h
  · rw [accumulate_detections_ok_eq y la ld ig (Bool.eq_false_iff.mpr hg)] at h
    injection h with h
    exact h.symm

theorem sigMask_getElem? {y la : List ℚ} (h : la.length = y.length) {i : ℕ} (hi : i < y.length) :
    (sigMask y la)[i]? = some (decide (la.getD i 0 < y.getD i 0)) := by
  rw [sigMask, List.getElem?_map]
  have hz : (y.zip la)[i]? = some (y.getD i 0, la.getD i 0) := by
    apply List.getElem?_zip_eq_some.mpr
    constructor
    · show y[i]? = some (y.getD i 0)
      rw [List.getD_eq_getElem _ _ hi, List.getElem?_eq_getElem hi]
    · show la[i]? = some (la.getD i 0)
      rw [List.getD_eq_getElem _ _ (show i < la.length by omega),
        List.getElem?_eq_getElem (show i < la.length by omega)]
  rw [hz]
  rfl

theorem sigMask_getLast {y la : List ℚ} (h : la.length = y.length) (hne : y ≠ [])
    (hlt : la.getD (y.length - 1) 0 < y.getD (y.length - 1) 0) :
    (sigMask y la).getLast? = some true := by
  have hylen : 0 < y.length := List.length_pos_of_ne_nil hne
  rw [List.getLast?_eq_getElem?, sigMask_length h]
  rw [sigMask_getElem? h (by omega)]
  congr 1
  exact decide_eq_true hlt

/-- C4 counterexample: on the signal `[1, 1]` (which ends above the
accumulation threshold `0`), the legacy `nanopart.util.accumulate_detections`
synthesizes the final region end as `1 = length - 1`, not the signal length
`2`: the returned region is `[0, 1)`, the final sample is excluded from the
sum (`1`, not `2`), and no returned region ends at the signal length. -/
theorem claim_C4_counterexample :
    accumulate_detections_np [1, 1] [0, 0] [0, 0] = Except.ok ([1], [1, 1], [(0, 1)]) ∧
    ¬∃ s, ∃ out, accumulate_detections_np [1, 1] [0, 0] [0, 0] = Except.ok out ∧
        out.2.2.getLast? = some (s, 2) := by
  have heval : accumulate_detections_np [1, 1] [0, 0] [0, 0] =
      Except.ok ([1], [1, 1], [(0, 1)]) := by
    norm_num [accumulate_detections_np, runsAux, segAny, segSum, setAll, cumsum, cumsumFrom,
      List.zip, List.zipWith]
  refine ⟨heval, ?_⟩
  rintro ⟨s, out, hout, hlast⟩
  rw [heval] at hout
  injection hout with hout
  rw [← hout] at hlast
  simp at hlast

/-- C4 amended: the spcal contiguous-region finder synthesizes the final
end of a signal ending above threshold as exactly the signal length, and
`label_regions` assigns ascending IDs `1..N` in index order with `0`
elsewhere (also when a region's end equals the signal length); the legacy
nanopart `accumulate_detections` instead synthesizes that final end at
signal length minus one. -/
theorem claim_C4_amended :
    (∀ (y la : List ℚ), la.length = y.length → y ≠ [] →
        la.getD (y.length - 1) 0 < y.getD (y.length - 1) 0 →
        ∃ s, (get_contiguous_regions y la).getLast? = some (s, y.length)) ∧
    (∀ (y la ld : List ℚ) (ig : Bool), la.length = y.length →
        ∀ out, accumulate_detections y la ld ig = Except.ok out →
          out.2.1.length = y.length ∧
          (∀ j, j < out.2.2.length → ∀ i, rStart out.2.2 j ≤ i → i < rEnd out.2.2 j →
            out.2.1.getD i 0 = (j : ℤ) + 1) ∧
          (∀ i, i < y.length →
            (∀ j, j < out.2.2.length → ¬(rStart out.2.2 j ≤ i ∧ i < rEnd out.2.2 j)) →
            out.2.1.getD i 0 = 0)) ∧
    (∀ (y la : List ℚ), la.length = y.length → y ≠ [] →
        la.getD (y.length - 1) 0 < y.getD (y.length - 1) 0 →
        ∃ s, (runsAux 1 0 none (sigMask y la)).getLast? = some (s, y.length - 1)) := by
  refine ⟨?_, ?_, ?_⟩
  · intro y la hla hne hlt
    have hmask := sigMask_getLast hla hne hlt
    rcases runsAux_last_of_true_end 0 (sigMask y la) 0 none (Or.inl hmask) with ⟨s, hs⟩
    refine ⟨s, ?_⟩
    rw [get_contiguous_regions_eq, runsOf, hs, sigMask_length hla]
    simp
  · intro y la ld ig hla out hout
    rw [accumulate_detections_ok_inv y la ld ig out hout]
    have hwf : RegionsWF (accSurv y la ld) y.length := accSurv_wf ld hla
    refine ⟨label_regions_length _ _, ?_, ?_⟩
    · intro j hj i h1 h2
      exact label_regions_getD_of_mem hwf hj h1 h2
    · intro i hi hout'
      exact label_regions_getD_of_not_mem hwf hi hout'
  · intro y la hla hne hlt
    have hmask := sigMask_getLast hla hne hlt
    rcases runsAux_last_of_true_end 1 (sigMask y la) 0 none (Or.inl hmask) with ⟨s, hs⟩
    refine ⟨s, ?_⟩
    rw [hs, sigMask_length hla]
    simp

theorem claim_C4_witness :
    (([(1 : ℚ), 1]).length = ([(0 : ℚ), 2]).length ∧ ([(0 : ℚ), 2] : List ℚ) ≠ [] ∧
      ([(1 : ℚ), 1]).getD (([(0 : ℚ), 2]).length - 1) 0 <
        ([(0 : ℚ), 2]).getD (([(0 : ℚ), 2]).length - 1) 0) ∧
    (∃ s, (get_contiguous_regions [0, 2] [1, 1]).getLast? = some (s, ([(0 : ℚ), 2]).length)) ∧
    (accumulate_detections [0, 3] [1, 1] [2, 2] false = Except.ok ([3], [0, 1], [(1, 2)]) ∧
      (([3], [0, 1], [(1, 2)]) : List ℚ × List ℤ × List (ℕ × ℕ)).2.1.length =
        ([(0 : ℚ), 3]).length ∧
      (∀ j, j < (([3], [0, 1], [(1, 2)]) : List ℚ × List ℤ × List (ℕ × ℕ)).2.2.length →
        ∀ i, rStart (([3], [0, 1], [(1, 2)]) : List ℚ × List ℤ × List (ℕ × ℕ)).2.2 j ≤ i →
          i < rEnd (([3], [0, 1], [(1, 2)]) : List ℚ × List ℤ × List (ℕ × ℕ)).2.2 j →
          (([3], [0, 1], [(1, 2)]) : List ℚ × List ℤ × List (ℕ × ℕ)).2.1.getD i 0 = (j : ℤ) + 1) ∧
      (∀ i, i < ([(0 : ℚ), 3]).length →
        (∀ j, j < (([3], [0, 1], [(1, 2)]) : List ℚ × List ℤ × List (ℕ × ℕ)).2.2.length →
          ¬(rStart (([3], [0, 1], [(1, 2)]) : List ℚ × List ℤ × List (ℕ × ℕ)).2.2 j ≤ i ∧
            i < rEnd (([3], [0, 1], [(1, 2)]) : List ℚ × List ℤ × List (ℕ × ℕ)).2.2 j)) →
        (([3], [0, 1], [(1, 2)]) : List ℚ × List ℤ × List (ℕ × ℕ)).2.1.getD i 0 = 0)) ∧
    (∃ s, (runsAux 1 0 none (sigMask [0, 2] [1, 1])).getLast? =
      some (s, ([(0 : ℚ), 2]).length - 1)) := by
  have heval : accumulate_detections [0, 3] [1, 1] [2, 2] false =
      Except.ok ([3], [0, 1], [(1, 2)]) := by
    norm_num [accumulate_detections, get_contiguous_regions, runsOf, runsAux, segAny, segSum,
      label_regions, labelPre, labelPairsStart, labelPairsEnd, labelEndsF, labelIx, setAll,
      cumsum, cumsumFrom, List.zip, List.zipWith]
  refine ⟨⟨by decide, by decide, by decide⟩,
    claim_C4_amended.1 [0, 2] [1, 1] (by decide) (by decide) (by decide),
    ⟨heval, claim_C4_amended.2.1 [0, 3] [1, 1] [2, 2] false (by decide)
      ([3], [0, 1], [(1, 2)]) heval⟩,
    claim_C4_amended.2.2 [0, 2] [1, 1] (by decide) (by decide) (by decide)⟩

/-!
## Facts about `combine_detections`
-/

/-- The union mask `any_label > 0` used by `combine_detections`. -/
def anyMask (chans : List ChannelOut) (n : ℕ) : List Bool :=
  (anyLabelList chans n).map fun v => decide (0 < v)

theorem anyLabel_fold (chans : List ChannelOut) (n : ℕ)
    (h : ∀ c ∈ chans, c.labels.length = n) :
    ∀ (acc : List ℤ), acc.length = n →
      (chans.foldl (fun acc c => (acc.zip c.labels).map fun p => if 0 < p.2 then 1 else p.1)
          acc).length = n ∧
      ∀ i, i < n →
        (chans.foldl (fun acc c => (acc.zip c.labels).map fun p => if 0 < p.2 then 1 else p.1)
            acc).getD i 0 =
          if ∃ c ∈ chans, 0 < c.labels.getD i 0 then 1 else acc.getD i 0 := by
  induction chans with
  | nil =>
      intro acc hacc
      refine ⟨hacc, ?_⟩
      intro i hi
      simp
  | cons c rest ih =>
      intro acc hacc
      have hc : c.labels.length = n := h c (List.mem_cons_self _ _)
      have hstep_len : ((acc.zip c.labels).map fun p => if 0 < p.2 then (1 : ℤ) else p.1).length = n := by
        rw [List.length_map, List.length_zip, hacc, hc, min_self]
      have hrest : ∀ c' ∈ rest, c'.labels.length = n := fun c' hc' =>
        h c' (List.mem_cons_of_mem _ hc')
      rcases ih hrest _ hstep_len with ⟨ihlen, ihget⟩
      refine ⟨ihlen, ?_⟩
      intro i hi
      rw [List.foldl_cons, ihget i hi]
      have hstep_get : ((acc.zip c.labels).map fun p => if 0 < p.2 then (1 : ℤ) else p.1).getD i 0 =
          if 0 < c.labels.getD i 0 then 1 else acc.getD i 0 := by
        rw [List.getD_eq_getElem?_getD, List.getElem?_map]
        have hz : (acc.zip c.labels)[i]? = some (acc.getD i 0, c.labels.getD i 0) := by
          apply List.getElem?_zip_eq_some.mpr
          constructor
          · show acc[i]? = some (acc.getD i 0)
            rw [List.getD_eq_getElem _ _ (by omega), List.getElem?_eq_getElem (by omega)]
          · show c.labels[i]? = some (c.labels.getD i 0)
            rw [List.getD_eq_getElem _ _ (by omega), List.getElem?_eq_getElem (by omega)]
        rw [hz]
        rfl
      by_cases hex : ∃ c' ∈ rest, 0 < c'.labels.getD i 0
      · rw [if_pos hex, if_pos ?_]
        rcases hex with ⟨c', hc', hpos⟩
        exact ⟨c', List.mem_cons_of_mem _ hc', hpos⟩
      · rw [if_neg hex, hstep_get]
        by_cases hhead : 0 < c.labels.getD i 0
        · rw [if_pos hhead, if_pos ⟨c, List.mem_cons_self _ _, hhead⟩]
        · rw [if_neg hhead, if_neg ?_]
          rintro ⟨c', hc', hpos⟩
          rcases List.mem_cons.mp hc' with rfl | hc''
          · exact hhead hpos
          · exact hex ⟨c', hc'', hpos⟩

theorem anyLabelList_length (chans : List ChannelOut) (n : ℕ)
    (h : ∀ c ∈ chans, c.labels.length = n) : (anyLabelList chans n).length = n :=
  (anyLabel_fold chans n h (List.replicate n 0) (List.length_replicate _ _)).1

theorem anyLabelList_getD (chans : List ChannelOut) (n : ℕ)
    (h : ∀ c ∈ chans, c.labels.length = n) {i : ℕ} (hi : i < n) :
    (anyLabelList chans n).getD i 0 =
      if ∃ c ∈ chans, 0 < c.labels.getD i 0 then 1 else 0 := by
  rw [anyLabelList,
    (anyLabel_fold chans n h (List.replicate n 0) (List.length_replicate _ _)).2 i hi]
  congr 1
  rw [List.getD_eq_getElem?_getD, List.getElem?_replicate, if_pos hi]
  rfl

theorem anyMask_length (chans : List ChannelOut) (n : ℕ)
    (h : ∀ c ∈ chans, c.labels.length = n) : (anyMask chans n).length = n := by
  rw [anyMask, List.length_map, anyLabelList_length chans n h]

theorem anyMask_getD (chans : List ChannelOut) (n : ℕ)
    (h : ∀ c ∈ chans, c.labels.length = n) {i : ℕ} (hi : i < n) :
    (anyMask chans n).getD i false = true ↔ ∃ c ∈ chans, 0 < c.labels.getD i 0 := by
  rw [anyMask, List.getD_eq_getElem?_getD, List.getElem?_map]
  have hg : (anyLabelList chans n)[i]? = some ((anyLabelList chans n).getD i 0) := by
    rw [List.getD_eq_getElem _ _ (by rw [anyLabelList_length chans n h]; exact hi),
      List.getElem?_eq_getElem (by rw [anyLabelList_length chans n h]; exact hi)]
  rw [hg, anyLabelList_getD chans n h hi]
  show decide (0 < if ∃ c ∈ chans, 0 < c.labels.getD i 0 then (1 : ℤ) else 0) = true ↔ _
  rw [decide_eq_true_eq]
  split_ifs with hcond
  · exact ⟨fun _ => hcond, fun _ => by norm_num⟩
  · exact ⟨fun hlt => absurd hlt (by norm_num), fun hc => absurd hc hcond⟩

theorem combine_detections_eq (chans : List ChannelOut) (n : ℕ) (hne : chans ≠ [])
    (hlen : ∀ c ∈ chans, c.labels.length = n) :
    combine_detections chans =
      (chans.map fun c => combinedSums c (runsOf (anyMask chans n)),
        label_regions (runsOf (anyMask chans n)) n,
        runsOf (anyMask chans n)) := by
  rcases List.exists_cons_of_ne_nil hne with ⟨c0, rest, rfl⟩
  have hn : ((c0 :: rest).head?.map fun c => c.labels.length).getD 0 = n := by
    rw [List.head?_cons]
    exact hlen c0 (List.mem_cons_self _ _)
  rw [combine_detections]
  rw [hn]
  rfl

/-- A channel triple that was produced by (spcal) `accumulate_detections`
on a signal of length `n` with matching threshold arrays. -/
def ChannelFromAccumulate (c : ChannelOut) (n : ℕ) : Prop :=
  ∃ y la ld : List ℚ, ∃ ig : Bool, la.length = y.length ∧ ld.length = y.length ∧
    y.length = n ∧
    accumulate_detections y la ld ig = Except.ok (c.sums, c.labels, c.regions)

theorem channel_facts {c : ChannelOut} {n : ℕ} (h : ChannelFromAccumulate c n) :
    RegionsWF c.regions n ∧ c.labels.length = n ∧ c.sums.length = c.regions.length ∧
      ∀ r ∈ c.regions, ∀ i, r.1 ≤ i → i < r.2 → 0 < c.labels.getD i 0 := by
  rcases h with ⟨y, la, ld, ig, hla, hld, hyn, hacc⟩
  have htriple := accumulate_detections_ok_inv y la ld ig _ hacc
  have h1 : c.sums = accSums y la ld ig := congrArg Prod.fst htriple
  have h2 : c.labels = label_regions (accSurv y la ld) y.length :=
    congrArg (fun t => t.2.1) htriple
  have h3 : c.regions = accSurv y la ld := congrArg (fun t => t.2.2) htriple
  have hwf : RegionsWF (accSurv y la ld) y.length := accSurv_wf ld hla
  subst hyn
  refine ⟨h3 ▸ hwf, by rw [h2, label_regions_length], by rw [h1, h3, accSums, List.length_map], ?_⟩
  intro r hr i hi1 hi2
  rw [h3] at hr
  rcases List.mem_iff_getElem.mp hr with ⟨j, hj, hje⟩
  have hs : rStart (accSurv y la ld) j = r.1 := by
    rw [rStart, List.getD_eq_getElem _ _ hj, hje]
  have he : rEnd (accSurv y la ld) j = r.2 := by
    rw [rEnd, List.getD_eq_getElem _ _ hj, hje]
  rw [h2, label_regions_getD_of_mem hwf hj (by omega) (by omega)]
  positivity

theorem regionsWF_nodup {rs : List (ℕ × ℕ)} {n : ℕ} (h : RegionsWF rs n) : rs.Nodup := by
  refine List.Pairwise.imp_of_mem ?_ h.2
  intro a b ha _ hab
  intro hcon
  rw [hcon] at hab
  have := (h.1 b (hcon ▸ ha)).1
  omega

theorem containedB_iff {r bigR : ℕ × ℕ} :
    containedB r bigR = true ↔ bigR.1 ≤ r.1 ∧ r.2 ≤ bigR.2 := by
  rw [containedB]
  simp

theorem list_sum_getD (l : List ℚ) : l.sum = ∑ j ∈ Finset.range l.length, l.getD j 0 := by
  induction l with
  | nil => simp
  | cons x t ih =>
      rw [List.sum_cons, List.length_cons, Finset.sum_range_succ', ih]
      simp only [List.getD_cons_succ, List.getD_cons_zero]
      ring

theorem list_map_sum_getD {α : Type} (l : List α) (f : α → ℚ) (d : α) :
    (l.map f).sum = ∑ j ∈ Finset.range l.length, f (l.getD j d) := by
  induction l with
  | nil => simp
  | cons x t ih =>
      rw [List.map_cons, List.sum_cons, List.length_cons, Finset.sum_range_succ', ih]
      simp only [List.getD_cons_succ, List.getD_cons_zero]
      ring

theorem zip_getD {α β : Type} {l1 : List α} {l2 : List β} {t : ℕ} (d1 : α) (d2 : β)
    (h1 : t < l1.length) (h2 : t < l2.length) :
    (l1.zip l2).getD t (d1, d2) = (l1.getD t d1, l2.getD t d2) := by
  have hz : (l1.zip l2)[t]? = some (l1.getD t d1, l2.getD t d2) := by
    apply List.getElem?_zip_eq_some.mpr
    constructor
    · show l1[t]? = some (l1.getD t d1)
      rw [List.getD_eq_getElem _ _ h1, List.getElem?_eq_getElem h1]
    · show l2[t]? = some (l2.getD t d2)
      rw [List.getD_eq_getElem _ _ h2, List.getElem?_eq_getElem h2]
  rw [List.getD_eq_getElem?_getD, hz]
  rfl

/-- C6: for channels produced by per-channel detection, every original
region is wholly contained in exactly one combined region; the combined
sums are the containment-attributed sums; and each channel's combined sums
total exactly its original sums (no region lost or double counted). -/
theorem claim_C6_combine (chans : List ChannelOut) (n : ℕ) (hne : chans ≠ [])
    (hacc : ∀ c ∈ chans, ChannelFromAccumulate c n) :
    (∀ c ∈ chans, ∀ r ∈ c.regions,
      ∃! q : ℕ × ℕ, q ∈ (combine_detections chans).2.2 ∧ q.1 ≤ r.1 ∧ r.2 ≤ q.2) ∧
    ((combine_detections chans).1 =
      chans.map fun c => combinedSums c (combine_detections chans).2.2) ∧
    (∀ c ∈ chans, (combinedSums c (combine_detections chans).2.2).sum = c.sums.sum) := by
  have hlen : ∀ c ∈ chans, c.labels.length = n := fun c hc => (channel_facts (hacc c hc)).2.1
  have hcd := combine_detections_eq chans n hne hlen
  have hA : (combine_detections chans).2.2 = runsOf (anyMask chans n) := by rw [hcd]
  have hmaskn : (anyMask chans n).length = n := anyMask_length chans n hlen
  have hAwf : RegionsWF (runsOf (anyMask chans n)) n := by
    have := RegionsWF.runsOf (anyMask chans n)
    rwa [hmaskn] at this
  have huniq : ∀ c ∈ chans, ∀ r ∈ c.regions,
      ∃! q : ℕ × ℕ, q ∈ runsOf (anyMask chans n) ∧ q.1 ≤ r.1 ∧ r.2 ≤ q.2 := by
    intro c hc r hr
    have hf := channel_facts (hacc c hc)
    have hrb := hf.1.1 r hr
    refine runsOf_unique_contain (anyMask chans n) r.1 r.2 hrb.1 (by omega) ?_
    intro i hi1 hi2
    have hin : i < n := by omega
    rw [anyMask_getD chans n hlen hin]
    exact ⟨c, hc, hf.2.2.2 r hr i hi1 hi2⟩
  refine ⟨by rw [hA]; exact huniq, by rw [hcd], ?_⟩
  intro c hc
  rw [hA]
  have hf := channel_facts (hacc c hc)
  have hzlen : (c.regions.zip c.sums).length = c.regions.length := by
    rw [List.length_zip, hf.2.2.1, min_self]
  set A := runsOf (anyMask chans n) with hAdef
  rw [combinedSums, list_map_sum_getD _ _ ((0 : ℕ), (0 : ℕ))]
  have hinner : ∀ J ∈ Finset.range A.length,
      ((c.regions.zip c.sums).map fun p =>
        if containedB p.1 (A.getD J (0, 0)) then p.2 else 0).sum =
      ∑ t ∈ Finset.range c.regions.length,
        (if containedB (c.regions.getD t (0, 0)) (A.getD J (0, 0)) then c.sums.getD t 0
          else 0) := by
    intro J _
    rw [list_map_sum_getD _ _ (((0 : ℕ), (0 : ℕ)), (0 : ℚ)), hzlen]
    refine Finset.sum_congr rfl ?_
    intro t ht
    have ht' : t < c.regions.length := Finset.mem_range.mp ht
    rw [zip_getD (0, 0) 0 ht' (by omega)]
  rw [Finset.sum_congr rfl hinner, Finset.sum_comm]
  rw [list_sum_getD c.sums, hf.2.2.1]
  refine Finset.sum_congr rfl ?_
  intro t ht
  have ht' : t < c.regions.length := Finset.mem_range.mp ht
  have hrmem : c.regions.getD t (0, 0) ∈ c.regions := by
    rw [List.getD_eq_getElem _ _ ht']
    exact List.getElem_mem ht'
  rcases huniq c hc _ hrmem with ⟨q, ⟨hqA, hq1, hq2⟩, hq_uniq⟩
  rcases List.mem_iff_getElem.mp hqA with ⟨J0, hJ0, hJ0e⟩
  have hAnodup : A.Nodup := regionsWF_nodup hAwf
  rw [Finset.sum_eq_single J0]
  · have hcond : containedB (c.regions.getD t (0, 0)) (A.getD J0 (0, 0)) = true := by
      rw [containedB_iff, List.getD_eq_getElem _ _ hJ0, hJ0e]
      exact ⟨hq1, hq2⟩
    rw [if_pos hcond]
  · intro J hJ hneJ
    rw [if_neg]
    intro hcon
    rw [containedB_iff] at hcon
    have hJ' : J < A.length := Finset.mem_range.mp hJ
    have hqeq : A.getD J (0, 0) = q := by
      refine hq_uniq _ ⟨?_, hcon.1, hcon.2⟩
      rw [List.getD_eq_getElem _ _ hJ']
      exact List.getElem_mem hJ'
    have : A[J] = A[J0] := by
      rw [hJ0e, ← hqeq, List.getD_eq_getElem _ _ hJ']
    exact hneJ (hAnodup.getElem_inj_iff.mp this)
  · intro hcon
    exact absurd (Finset.mem_range.mpr hJ0) hcon

/-- First concrete channel for the multi-channel witness. -/
def chanA : ChannelOut := ⟨[3], [0, 1, 0, 0, 0], [(1, 2)]⟩

/-- Second concrete channel for the multi-channel witness. -/
def chanB : ChannelOut := ⟨[3], [0, 0, 1, 0, 0], [(2, 3)]⟩

theorem claim_C6_witness :
    ([chanA, chanB] ≠ ([] : List ChannelOut)) ∧
    (∀ c ∈ [chanA, chanB], ChannelFromAccumulate c 5) ∧
    ((∀ c ∈ [chanA, chanB], ∀ r ∈ c.regions,
        ∃! q : ℕ × ℕ, q ∈ (combine_detections [chanA, chanB]).2.2 ∧ q.1 ≤ r.1 ∧ r.2 ≤ q.2) ∧
      ((combine_detections [chanA, chanB]).1 =
        [chanA, chanB].map fun c => combinedSums c (combine_detections [chanA, chanB]).2.2) ∧
      (∀ c ∈ [chanA, chanB],
        (combinedSums c (combine_detections [chanA, chanB]).2.2).sum = c.sums.sum)) := by
  have haccA : accumulate_detections [0, 3, 0, 2, 0] [1, 1, 1, 1, 1] [2, 2, 2, 2, 2] false =
      Except.ok (chanA.sums, chanA.labels, chanA.regions) := by
    norm_num [accumulate_detections, chanA, get_contiguous_regions, runsOf, runsAux, segAny,
      segSum, label_regions, labelPre, labelPairsStart, labelPairsEnd, labelEndsF, labelIx,
      setAll, cumsum, cumsumFrom, List.zip, List.zipWith]
  have haccB : accumulate_detections [0, 0, 3, 0, 0] [1, 1, 1, 1, 1] [2, 2, 2, 2, 2] false =
      Except.ok (chanB.sums, chanB.labels, chanB.regions) := by
    norm_num [accumulate_detections, chanB, get_contiguous_regions, runsOf, runsAux, segAny,
      segSum, label_regions, labelPre, labelPairsStart, labelPairsEnd, labelEndsF, labelIx,
      setAll, cumsum, cumsumFrom, List.zip, List.zipWith]
  have hacc : ∀ c ∈ [chanA, chanB], ChannelFromAccumulate c 5 := by
    intro c hc
    rcases List.mem_cons.mp hc with rfl | hc'
    · exact ⟨[0, 3, 0, 2, 0], [1, 1, 1, 1, 1], [2, 2, 2, 2, 2], false,
        by decide, by decide, by decide, haccA⟩
    · rcases List.mem_cons.mp hc' with rfl | hc''
      · exact ⟨[0, 0, 3, 0, 0], [1, 1, 1, 1, 1], [2, 2, 2, 2, 2], false,
          by decide, by decide, by decide, haccB⟩
      · simp at hc''
  exact ⟨List.cons_ne_nil _ _, hacc,
    claim_C6_combine [chanA, chanB] 5 (List.cons_ne_nil _ _) hacc⟩

/-!
## Threshold engine (`src/spcal/limit.py`)

The scalar (`window_size = 0`) paths are embedded.  Analytic functions the
repository imports from modules absent from the provided sources
(`spcal/poisson.py`, `spcal/dists/`, `statistics.NormalDist`,
`bottleneck.nanstd`) are opaque parameters: every verified property holds
for all instantiations of them.
-/

/-- One limit record (`SPCalLimit`): the background mean, the detection
threshold, the method name and the `params` entries used by the claims. -/
structure SPCalLimitR where
  mean_signal : FP
  detection_threshold : FP
  name : String
  alpha : ℚ
  window : ℕ
  iters : ℕ
deriving DecidableEq, Repr

/-- The iterative-refinement loop body iterations after the first pass:
`while (np.all(prev_threshold > threshold) and iters < max_iters) or iters == 0`.
`gtb prev t` is the `np.all(prev > threshold)` test, `fuel` counts the
remaining allowed iterations (`max_iters - iters`); returns the final
`(prev_threshold, threshold)` pair and the number of extra passes run. -/
def limitIterAux {α : Type} (gtb : α → α → Bool) (step : α → α) :
    ℕ → α → α → α × α × ℕ
  | 0, prev, t => (prev, t, 0)
  | fuel + 1, prev, t =>
      if gtb prev t then
        let r := limitIterAux gtb step fuel t (step t)
        (r.1, r.2.1, r.2.2 + 1)
      else (prev, t, 0)

/-- The full refinement loop: `threshold = prev_threshold = ∞; iters = 0`;
the first pass always runs (the `or iters == 0` clause), then up to
`max_iters - 1` further passes run while the new threshold keeps strictly
decreasing.  Returns `(prev_threshold, threshold, total passes)`. -/
def limitIter {α : Type} (gtb : α → α → Bool) (step : α → α) (init : α)
    (maxIters : ℤ) : α × α × ℕ :=
  let r := limitIterAux gtb step (maxIters - 1).toNat init (step init)
  (r.1, r.2.1, r.2.2 + 1)

/-- Scalar `np.all(prev > threshold)`. -/
def scalarAllGt (prev t : FP) : Bool := FP.lt t prev

/-- The samples currently below the threshold:
`responses[responses < threshold]`. -/
def belowThreshold (responses : List ℚ) (t : FP) : List ℚ :=
  responses.filter fun x => FP.lt (.fin x) t

/-- One pass of `fromPoisson` (scalar): re-estimate the background mean
from the samples below the current threshold and set
`threshold = np.ceil(mu + sc)`, where `sc` is the critical value returned
by the pluggable Poisson formula (an opaque parameter; `spcal/poisson.py`
is not among the provided sources).  A NaN mean (empty selection)
propagates to a NaN threshold. -/
def poissonScalarStep (sc : ℚ → ℚ) (responses : List ℚ) (t : FP) : FP :=
  match nanmean (belowThreshold responses t) with
  | .fin mu => .fin ((⌈mu + sc mu⌉ : ℤ) : ℚ)
  | _ => .nan

/-- One pass of `fromGaussian` (scalar): `threshold = mu + std * z` with
`mu = bn.nanmean(...)` and `std = bn.nanstd(...)` (the latter an opaque
parameter since its value is an irrational square root; a NaN mean or std
propagates). -/
def gaussianScalarStep (nanstd : List ℚ → FP) (z : ℚ) (responses : List ℚ) (t : FP) : FP :=
  match nanmean (belowThreshold responses t), nanstd (belowThreshold responses t) with
  | .fin mu, .fin sd => .fin (mu + sd * z)
  | _, _ => .nan

/-- One pass of `fromCompoundPoisson`: re-estimate `lam` and compute the
`(1-alpha)`-quantile threshold.  `quantile q lam mu sigma` models
`compound_poisson_lognormal_quantile` and `simThreshold lam` collapses the
simulated single-ion branch (simulation, `p0`/`q0` correction and
`np.quantile`); both are opaque (`spcal/dists/` is not among the provided
sources). -/
def compoundScalarStep (quantile : ℚ → FP → ℚ → ℚ → FP) (simThreshold : FP → FP)
    (singleIon : Bool) (alpha sigma : ℚ) (responses : List ℚ) (t : FP) : FP :=
  let lam := nanmean (belowThreshold responses t)
  if singleIon then simThreshold lam
  else quantile (1 - alpha) lam (0 - sigma ^ 2 / 2) sigma

/-- `SPCalLimit.fromGaussian` (scalar path): empty-signal check, then the
refinement loop; `invCdf` models `NormalDist().inv_cdf`. -/
def fromGaussian (nanstd : List ℚ → FP) (invCdf : ℚ → ℚ) (responses : List ℚ)
    (alpha : ℚ) (maxIters : ℤ) : Except String SPCalLimitR :=
  if responses.length = 0 then Except.error "fromGaussian: responses is size 0"
  else
    let z := invCdf (1 - alpha)
    let r := limitIter scalarAllGt (gaussianScalarStep nanstd z responses) FP.inf maxIters
    Except.ok
      { mean_signal := nanmean (belowThreshold responses r.1)
        detection_threshold := r.2.1
        name := "Gaussian"
        alpha := alpha
        window := 0
        iters := r.2.2 - 1 }

/-- `SPCalLimit.fromPoisson` (scalar path): empty-signal check, formula
dispatch (unknown names raise), then the refinement loop.  The source
lowercases the formula name first (`formula = formula.lower()`); the
embedding takes the already-lowercased name. -/
def fromPoisson (currie formula_a formula_c stapleton : ℚ → ℚ) (responses : List ℚ)
    (alpha : ℚ) (formula : String) (maxIters : ℤ) : Except String SPCalLimitR :=
  if responses.length = 0 then Except.error "fromPoisson: responses is size 0"
  else
    match (if formula = "currie" then some currie
      else if formula = "formula a" then some formula_a
      else if formula = "formula c" then some formula_c
      else if formula.startsWith "stapleton" then some stapleton
      else none) with
    | none => Except.error "unknown poisson limit formula"
    | some sc =>
        let r := limitIter scalarAllGt (poissonScalarStep sc responses) FP.inf maxIters
        Except.ok
          { mean_signal := nanmean (belowThreshold responses r.1)
            detection_threshold := r.2.1
            name := "Poisson"
            alpha := alpha
            window := 0
            iters := r.2.2 - 1 }

/-- `SPCalLimit.fromCompoundPoisson`: NO empty-signal check exists in the
source; the loop runs with `lam = bn.nanmean(<empty>) = NaN` and a limit
object is still constructed. -/
def fromCompoundPoisson (quantile : ℚ → FP → ℚ → ℚ → FP) (simThreshold : FP → FP)
    (singleIon : Bool) (responses : List ℚ) (alpha sigma : ℚ) (maxIters : ℤ) :
    Except String SPCalLimitR :=
  let r := limitIter scalarAllGt
    (compoundScalarStep quantile simThreshold singleIon alpha sigma responses) FP.inf maxIters
  Except.ok
    { mean_signal := nanmean (belowThreshold responses r.1)
      detection_threshold := r.2.1
      name := "CompoundPoisson"
      alpha := alpha
      window := 0
      iters := r.2.2 - 1 }

/-- `SPCalLimit.fromHighest`: compute Poisson first, then Gaussian, and
return the one with the larger threshold (`np.mean` of a scalar is
itself); a failure of either propagates in that order. -/
def fromHighest (currie formula_a formula_c stapleton : ℚ → ℚ) (nanstd : List ℚ → FP)
    (invCdf : ℚ → ℚ) (responses : List ℚ) (alphaP : ℚ) (formula : String) (alphaG : ℚ)
    (maxIters : ℤ) : Except String SPCalLimitR := do
  let p ← fromPoisson currie formula_a formula_c stapleton responses alphaP formula maxIters
  let g ← fromGaussian nanstd invCdf responses alphaG maxIters
  if FP.lt p.detection_threshold g.detection_threshold then pure g else pure p

/-- Modelled from the spec: `spcal.calc.is_integer_or_near` is imported by
`spcal/limit.py` but its definition is not among the provided sources; per
the spec a value counts when it is within the tolerance of an integer. -/
def is_integer_or_near (x tol : ℚ) : Bool := decide (|x - round x| ≤ tol)

/-- `SPCalLimit.fromBest`: classify the low-valued (≤ 5) nonzero samples.
The fraction `low_responses.size / np.count_nonzero(nonzero_response)` is a
Python integer division: it raises `ZeroDivisionError` when the signal has
no positive samples (in particular on an empty signal).  Fewer than 5%
low values selects Gaussian; otherwise more than 75% of the low values
near-integer selects Poisson (default formula "formula c"), else
CompoundPoisson. -/
def fromBest (currie formula_a formula_c stapleton : ℚ → ℚ) (nanstd : List ℚ → FP)
    (invCdf : ℚ → ℚ) (quantile : ℚ → FP → ℚ → ℚ → FP) (simThreshold : FP → FP)
    (singleIon : Bool) (responses : List ℚ) (alphaC alphaP alphaG sigma : ℚ)
    (maxIters : ℤ) : Except String SPCalLimitR :=
  let nonzeroCount := (responses.filter fun x => decide (0 < x)).length
  let low := responses.filter fun x => decide (0 < x) && decide (x ≤ 5)
  if nonzeroCount = 0 then Except.error "ZeroDivisionError"
  else if decide ((low.length : ℚ) / nonzeroCount < 1 / 20) then
    fromGaussian nanstd invCdf responses alphaG maxIters
  else if decide (((low.filter fun x => is_integer_or_near x (1 / 20)).length : ℚ)
      / low.length > 3 / 4) then
    fromPoisson currie formula_a formula_c stapleton responses alphaP "formula c" maxIters
  else
    fromCompoundPoisson quantile simThreshold singleIon responses alphaC sigma maxIters

theorem limitIterAux_spec {α : Type} (gtb : α → α → Bool) (step : α → α) :
    ∀ (fuel : ℕ) (prev t : α),
      ∃ k, k ≤ fuel ∧
        limitIterAux gtb step fuel prev t =
          ((if k = 0 then prev else step^[k - 1] t), step^[k] t, k) ∧
        (∀ j, j < k → gtb (if j = 0 then prev else step^[j - 1] t) (step^[j] t) = true) ∧
        (k < fuel → gtb (if k = 0 then prev else step^[k - 1] t) (step^[k] t) = false) := by
  intro fuel
  induction fuel with
  | zero =>
      intro prev t
      exact ⟨0, le_refl 0, by simp [limitIterAux], fun j hj => absurd hj (Nat.not_lt_zero j),
        fun h => absurd h (Nat.not_lt_zero 0)⟩
  | succ fuel ih =>
      intro prev t
      by_cases hg : gtb prev t = true
      · rcases ih t (step t) with ⟨k', hk', heq, hcont, hstop⟩
        refine ⟨k' + 1, by omega, ?_, ?_, ?_⟩
        · show (if gtb prev t then _ else _) = _
          rw [if_pos hg, heq]
          show ((if k' = 0 then t else step^[k' - 1] (step t)), step^[k'] (step t), k' + 1) = _
          have h1 : (if k' = 0 then t else step^[k' - 1] (step t)) = step^[k' + 1 - 1] t := by
            cases k' with
            | zero => simp
            | succ k'' =>
                simp only [Nat.succ_sub_one]
                rw [← Function.iterate_succ_apply]
                simp
          have h2 : step^[k'] (step t) = step^[k' + 1] t := by
            rw [← Function.iterate_succ_apply]
          rw [h1, h2]
          simp
        · intro j hj
          cases j with
          | zero => simpa using hg
          | succ j' =>
              have := hcont j' (by omega)
              have h1 : (if j' = 0 then t else step^[j' - 1] (step t)) = step^[j' + 1 - 1] t := by
                cases j' with
                | zero => simp
                | succ j'' =>
                    simp only [Nat.succ_sub_one]
                    rw [← Function.iterate_succ_apply]
                    congr 1
              have h2 : step^[j'] (step t) = step^[j' + 1] t := by
                rw [← Function.iterate_succ_apply]
              rw [h1, h2] at this
              simpa using this
        · intro hlt
          have := hstop (by omega)
          have h1 : (if k' = 0 then t else step^[k' - 1] (step t)) = step^[k' + 1 - 1] t := by
            cases k' with
            | zero => simp
            | succ k'' =>
                simp only [Nat.succ_sub_one]
                rw [← Function.iterate_succ_apply]
                simp
          have h2 : step^[k'] (step t) = step^[k' + 1] t := by
            rw [← Function.iterate_succ_apply]
          rw [h1, h2] at this
          simpa using this
      · have hg' : gtb prev t = false := Bool.eq_false_iff.mpr hg
        refine ⟨0, by omega, ?_, fun j hj => absurd hj (Nat.not_lt_zero j), fun _ => by
          simpa using hg'⟩
        show (if gtb prev t then _ else _) = _
        rw [if_neg (by rw [hg']; exact Bool.false_ne_true)]
        simp

/-- C1 amended: for any `np.all(prev > t)` test, any per-pass threshold
recomputation `step`, any initial threshold and any `max_iters`, the
refinement loop runs `k` passes with `1 ≤ k ≤ max(max_iters, 1)` (exactly
one pass whenever `max_iters ≤ 1`, including `max_iters = 0`), each pass
after the first ran only because the previous pass strictly lowered the
threshold, and an early exit happens exactly when the new threshold is not
lower; the final `(prev, threshold)` pair is the corresponding iterate, so
the loop always terminates. -/
theorem claim_C1_iteration {α : Type} (gtb : α → α → Bool) (step : α → α) (init : α)
    (maxIters : ℤ) :
    ∃ k, limitIter gtb step init maxIters = (step^[k - 1] init, step^[k] init, k) ∧
      1 ≤ k ∧ k ≤ max maxIters.toNat 1 ∧ (maxIters ≤ 1 → k = 1) ∧
      (∀ j, 1 ≤ j → j < k → gtb (step^[j - 1] init) (step^[j] init) = true) ∧
      (k < max maxIters.toNat 1 → gtb (step^[k - 1] init) (step^[k] init) = false) := by
  rcases limitIterAux_spec gtb step (maxIters - 1).toNat init (step init) with
    ⟨k', hk', heq, hcont, hstop⟩
  have hfuel : (maxIters - 1).toNat + 1 = max maxIters.toNat 1 := by omega
  have hshape : ∀ j : ℕ, (if j = 0 then init else step^[j - 1] (step init)) = step^[j] init := by
    intro j
    cases j with
    | zero => simp
    | succ j' =>
        simp only [Nat.succ_sub_one]
        rw [← Function.iterate_succ_apply]
        simp
  have hshape2 : ∀ j : ℕ, step^[j] (step init) = step^[j + 1] init := by
    intro j
    rw [← Function.iterate_succ_apply]
  refine ⟨k' + 1, ?_, by omega, by omega, by omega, ?_, ?_⟩
  · rw [limitIter, heq]
    have h1 := hshape k'
    have h2 := hshape2 k'
    simp only [Nat.add_sub_cancel]
    rw [h1, h2]
  · intro j hj1 hjk
    have := hcont (j - 1) (by omega)
    rw [hshape (j - 1), hshape2 (j - 1)] at this
    have hj : j - 1 + 1 = j := by omega
    rw [hj] at this
    exact this
  · intro hlt
    have := hstop (by omega)
    rw [hshape k', hshape2 k'] at this
    simpa using this

/-- C1 counterexample: with `max_iters = 0` (documented as "no iteration")
the loop still executes one pass — the `or iters == 0` clause — so "at
most `max_iters` passes" fails at `max_iters = 0`. -/
theorem claim_C1_counterexample :
    (limitIter scalarAllGt (poissonScalarStep (fun q => q) [1, 2]) FP.inf 0).2.2 = 1 ∧
    ¬((limitIter scalarAllGt (poissonScalarStep (fun q => q) [1, 2]) FP.inf 0).2.2 ≤ 0) := by
  have h : (limitIter scalarAllGt (poissonScalarStep (fun q => q) [1, 2]) FP.inf 0).2.2 = 1 := by
    norm_num [limitIter, limitIterAux]
  exact ⟨h, by rw [h]; omega⟩

theorem claim_C1_witness :
    ∃ k, limitIter scalarAllGt (poissonScalarStep (fun q => q) [1, 2]) FP.inf 1 =
        ((poissonScalarStep (fun q => q) [1, 2])^[k - 1] FP.inf,
          (poissonScalarStep (fun q => q) [1, 2])^[k] FP.inf, k) ∧
      1 ≤ k ∧ k ≤ max (1 : ℤ).toNat 1 ∧ ((1 : ℤ) ≤ 1 → k = 1) ∧
      (∀ j, 1 ≤ j → j < k →
        scalarAllGt ((poissonScalarStep (fun q => q) [1, 2])^[j - 1] FP.inf)
          ((poissonScalarStep (fun q => q) [1, 2])^[j] FP.inf) = true) ∧
      (k < max (1 : ℤ).toNat 1 →
        scalarAllGt ((poissonScalarStep (fun q => q) [1, 2])^[k - 1] FP.inf)
          ((poissonScalarStep (fun q => q) [1, 2])^[k] FP.inf) = false) :=
  claim_C1_iteration scalarAllGt (poissonScalarStep (fun q => q) [1, 2]) FP.inf 1

/-- C5 amended: on an empty signal `fromGaussian`, `fromPoisson` and
`fromHighest` fail immediately with the empty-signal error and construct
nothing; `fromBest` fails immediately, but with a `ZeroDivisionError` from
`low_responses.size / np.count_nonzero(...)`; and `fromCompoundPoisson`
performs no empty check at all — it returns a constructed limit whose
background mean is NaN. -/
theorem claim_C5_amended (nanstd : List ℚ → FP) (invCdf : ℚ → ℚ)
    (currie formula_a formula_c stapleton : ℚ → ℚ)
    (quantile : ℚ → FP → ℚ → ℚ → FP) (simThreshold : FP → FP) (singleIon : Bool)
    (alphaC alphaP alphaG sigma : ℚ) (formula : String) (maxIters : ℤ) :
    fromGaussian nanstd invCdf [] alphaG maxIters =
      Except.error "fromGaussian: responses is size 0" ∧
    fromPoisson currie formula_a formula_c stapleton [] alphaP formula maxIters =
      Except.error "fromPoisson: responses is size 0" ∧
    fromHighest currie formula_a formula_c stapleton nanstd invCdf [] alphaP formula alphaG
        maxIters = Except.error "fromPoisson: responses is size 0" ∧
    fromBest currie formula_a formula_c stapleton nanstd invCdf quantile simThreshold
        singleIon [] alphaC alphaP alphaG sigma maxIters =
      Except.error "ZeroDivisionError" ∧
    ∃ lim, fromCompoundPoisson quantile simThreshold singleIon [] alphaC sigma maxIters =
        Except.ok lim ∧ lim.mean_signal = FP.nan := by
  refine ⟨rfl, rfl, rfl, rfl, ⟨_, rfl, rfl⟩⟩

/-- C5 counterexample: `fromCompoundPoisson` on a zero-length signal does
not raise the empty-signal error — it returns a fully constructed
CompoundPoisson limit (here with NaN mean). -/
theorem claim_C5_counterexample :
    fromCompoundPoisson (fun _ _ _ _ => FP.fin 0) (fun _ => FP.fin 0) false []
        (1 / 1000000) (9 / 20) 1 =
      Except.ok
        { mean_signal := FP.nan, detection_threshold := FP.fin 0, name := "CompoundPoisson",
          alpha := 1 / 1000000, window := 0, iters := 0 } := by
  norm_num [fromCompoundPoisson, limitIter, limitIterAux, compoundScalarStep, belowThreshold,
    nanmean, scalarAllGt]

/-- The method name of a successfully constructed limit. -/
def limitName : Except String SPCalLimitR → Option String
  | Except.ok l => some l.name
  | Except.error _ => none

theorem fromGaussian_ok (nanstd : List ℚ → FP) (invCdf : ℚ → ℚ) (responses : List ℚ)
    (alpha : ℚ) (maxIters : ℤ) (h : responses ≠ []) :
    limitName (fromGaussian nanstd invCdf responses alpha maxIters) = some "Gaussian" := by
  rw [fromGaussian, if_neg (fun hc => h (List.eq_nil_of_length_eq_zero hc))]
  rfl

theorem fromPoisson_formula_c_ok (currie formula_a formula_c stapleton : ℚ → ℚ)
    (responses : List ℚ) (alpha : ℚ) (maxIters : ℤ) (h : responses ≠ []) :
    limitName (fromPoisson currie formula_a formula_c stapleton responses alpha "formula c"
      maxIters) = some "Poisson" := by
  rw [fromPoisson, if_neg (fun hc => h (List.eq_nil_of_length_eq_zero hc))]
  rfl

theorem fromCompoundPoisson_ok (quantile : ℚ → FP → ℚ → ℚ → FP) (simThreshold : FP → FP)
    (singleIon : Bool) (responses : List ℚ) (alpha sigma : ℚ) (maxIters : ℤ) :
    limitName (fromCompoundPoisson quantile simThreshold singleIon responses alpha sigma
      maxIters) = some "CompoundPoisson" := rfl

/-- C2 amended: `fromBest`'s selection is independent of any generating
Poisson rate λ — it is a deterministic function of the sample alone:
Gaussian iff strictly fewer than 5% of the nonzero samples are ≤ 5
(per the code comment this corresponds to a background mean of about 10,
not 50); otherwise Poisson iff strictly more than 75% of those low samples
are within 0.05 of an integer; otherwise CompoundPoisson. -/
theorem claim_C2_amended (currie formula_a formula_c stapleton : ℚ → ℚ)
    (nanstd : List ℚ → FP) (invCdf : ℚ → ℚ) (quantile : ℚ → FP → ℚ → ℚ → FP)
    (simThreshold : FP → FP) (singleIon : Bool) (responses : List ℚ)
    (alphaC alphaP alphaG sigma : ℚ) (maxIters : ℤ)
    (h : (responses.filter fun x => decide (0 < x)).length ≠ 0) :
    (limitName (fromBest currie formula_a formula_c stapleton nanstd invCdf quantile
        simThreshold singleIon responses alphaC alphaP alphaG sigma maxIters) =
          some "Gaussian" ↔
      ((responses.filter fun x => decide (0 < x) && decide (x ≤ 5)).length : ℚ) /
          ((responses.filter fun x => decide (0 < x)).length : ℚ) < 1 / 20) ∧
    (limitName (fromBest currie formula_a formula_c stapleton nanstd invCdf quantile
        simThreshold singleIon responses alphaC alphaP alphaG sigma maxIters) =
          some "Poisson" ↔
      (¬(((responses.filter fun x => decide (0 < x) && decide (x ≤ 5)).length : ℚ) /
          ((responses.filter fun x => decide (0 < x)).length : ℚ) < 1 / 20) ∧
        (((responses.filter fun x => decide (0 < x) && decide (x ≤ 5)).filter fun x =>
            is_integer_or_near x (1 / 20)).length : ℚ) /
          ((responses.filter fun x => decide (0 < x) && decide (x ≤ 5)).length : ℚ) >
          3 / 4)) ∧
    (limitName (fromBest currie formula_a formula_c stapleton nanstd invCdf quantile
        simThreshold singleIon responses alphaC alphaP alphaG sigma maxIters) =
          some "CompoundPoisson" ↔
      (¬(((responses.filter fun x => decide (0 < x) && decide (x ≤ 5)).length : ℚ) /
          ((responses.filter fun x => decide (0 < x)).length : ℚ) < 1 / 20) ∧
        ¬((((responses.filter fun x => decide (0 < x) && decide (x ≤ 5)).filter fun x =>
            is_integer_or_near x (1 / 20)).length : ℚ) /
          ((responses.filter fun x => decide (0 < x) && decide (x ≤ 5)).length : ℚ) >
          3 / 4))) := by
  have hne : responses ≠ [] := by
    intro hnil
    subst hnil
    simp at h
  by_cases h1 : ((responses.filter fun x => decide (0 < x) && decide (x ≤ 5)).length : ℚ) /
      ((responses.filter fun x => decide (0 < x)).length : ℚ) < 1 / 20
  · have hfb : limitName (fromBest currie formula_a formula_c stapleton nanstd invCdf quantile
        simThreshold singleIon responses alphaC alphaP alphaG sigma maxIters) =
        some "Gaussian" := by
      rw [fromBest, if_neg h, if_pos (by rw [decide_eq_true h1])]
      exact fromGaussian_ok nanstd invCdf responses alphaG maxIters hne
    refine ⟨⟨fun _ => h1, fun _ => hfb⟩, ?_, ?_⟩
    · rw [hfb]
      constructor
      · intro hcon
        exact absurd (Option.some.inj hcon) (by decide)
      · rintro ⟨hcon, -⟩
        exact absurd h1 hcon
    · rw [hfb]
      constructor
      · intro hcon
        exact absurd (Option.some.inj hcon) (by decide)
      · rintro ⟨hcon, -⟩
        exact absurd h1 hcon
  · by_cases h2 : (((responses.filter fun x => decide (0 < x) && decide (x ≤ 5)).filter fun x =>
        is_integer_or_near x (1 / 20)).length : ℚ) /
        ((responses.filter fun x => decide (0 < x) && decide (x ≤ 5)).length : ℚ) > 3 / 4
    · have hfb : limitName (fromBest currie formula_a formula_c stapleton nanstd invCdf quantile
          simThreshold singleIon responses alphaC alphaP alphaG sigma maxIters) =
          some "Poisson" := by
        rw [fromBest, if_neg h, if_neg (by rw [decide_eq_false h1]; exact Bool.false_ne_true),
          if_pos (by rw [decide_eq_true h2])]
        exact fromPoisson_formula_c_ok currie formula_a formula_c stapleton responses alphaP
          maxIters hne
      refine ⟨?_, ⟨fun _ => ⟨h1, h2⟩, fun _ => hfb⟩, ?_⟩
      · rw [hfb]
        constructor
        · intro hcon
          exact absurd (Option.some.inj hcon) (by decide)
        · intro hcon
          exact absurd hcon h1
      · rw [hfb]
        constructor
        · intro hcon
          exact absurd (Option.some.inj hcon) (by decide)
        · rintro ⟨-, hcon⟩
          exact absurd h2 hcon
    · have hfb : limitName (fromBest currie formula_a formula_c stapleton nanstd invCdf quantile
          simThreshold singleIon responses alphaC alphaP alphaG sigma maxIters) =
          some "CompoundPoisson" := by
        rw [fromBest, if_neg h, if_neg (by rw [decide_eq_false h1]; exact Bool.false_ne_true),
          if_neg (by rw [decide_eq_false h2]; exact Bool.false_ne_true)]
        exact fromCompoundPoisson_ok quantile simThreshold singleIon responses alphaC sigma
          maxIters
      refine ⟨?_, ?_, ⟨fun _ => ⟨h1, h2⟩, fun _ => hfb⟩⟩
      · rw [hfb]
        constructor
        · intro hcon
          exact absurd (Option.some.inj hcon) (by decide)
        · intro hcon
          exact absurd hcon h1
      · rw [hfb]
        constructor
        · intro hcon
          exact absurd (Option.some.inj hcon) (by decide)
        · rintro ⟨-, hcon⟩
          exact absurd hcon h2

/-- C2 counterexample: the integer signal `[49, 50, 51, 48, 52]` is a
possible draw from a Poisson background of mean `λ = 49` (every sample is
a natural number — denominator 1, nonnegative numerator — and the Poisson
support is all of ℕ; a typical Poisson(49) sample contains no value ≤ 5),
yet `fromBest` selects Gaussian, not Poisson: the selection depends only
on the fraction of low-valued samples, with no boundary at `λ = 50`. -/
theorem claim_C2_counterexample :
    (([(49 : ℚ), 50, 51, 48, 52]).all fun x => decide (x.den = 1) && decide (0 ≤ x.num)) =
      true ∧
    limitName (fromBest (fun q => q) (fun q => q) (fun q => q) (fun q => q)
      (fun _ => FP.fin 0) (fun q => q) (fun _ _ _ _ => FP.fin 0) (fun _ => FP.fin 0) false
      [49, 50, 51, 48, 52] (1 / 1000000) (1 / 1000) (1 / 1000000) (9 / 20) 1) =
      some "Gaussian" := by
  constructor
  · decide
  · norm_num [fromBest, limitName, fromGaussian, limitIter, limitIterAux, gaussianScalarStep,
      belowThreshold, nanmean, scalarAllGt, is_integer_or_near, List.filter]

theorem claim_C2_witness :
    ((([(49 : ℚ), 50, 51, 48, 52]).filter fun x => decide (0 < x)).length ≠ 0) ∧
    ((limitName (fromBest (fun q => q) (fun q => q) (fun q => q) (fun q => q)
        (fun _ => FP.fin 0) (fun q => q) (fun _ _ _ _ => FP.fin 0) (fun _ => FP.fin 0) false
        [49, 50, 51, 48, 52] (1 / 1000000) (1 / 1000) (1 / 1000000) (9 / 20) 1) =
          some "Gaussian" ↔
      ((([(49 : ℚ), 50, 51, 48, 52]).filter fun x => decide (0 < x) && decide (x ≤ 5)).length : ℚ) /
          ((([(49 : ℚ), 50, 51, 48, 52]).filter fun x => decide (0 < x)).length : ℚ) < 1 / 20) ∧
    (limitName (fromBest (fun q => q) (fun q => q) (fun q => q) (fun q => q)
        (fun _ => FP.fin 0) (fun q => q) (fun _ _ _ _ => FP.fin 0) (fun _ => FP.fin 0) false
        [49, 50, 51, 48, 52] (1 / 1000000) (1 / 1000) (1 / 1000000) (9 / 20) 1) =
          some "Poisson" ↔
      (¬(((([(49 : ℚ), 50, 51, 48, 52]).filter fun x => decide (0 < x) && decide (x ≤ 5)).length : ℚ) /
          ((([(49 : ℚ), 50, 51, 48, 52]).filter fun x => decide (0 < x)).length : ℚ) < 1 / 20) ∧
        (((([(49 : ℚ), 50, 51, 48, 52]).filter fun x => decide (0 < x) && decide (x ≤ 5)).filter fun x =>
            is_integer_or_near x (1 / 20)).length : ℚ) /
          ((([(49 : ℚ), 50, 51, 48, 52]).filter fun x => decide (0 < x) && decide (x ≤ 5)).length : ℚ) >
          3 / 4)) ∧
    (limitName (fromBest (fun q => q) (fun q => q) (fun q => q) (fun q => q)
        (fun _ => FP.fin 0) (fun q => q) (fun _ _ _ _ => FP.fin 0) (fun _ => FP.fin 0) false
        [49, 50, 51, 48, 52] (1 / 1000000) (1 / 1000) (1 / 1000000) (9 / 20) 1) =
          some "CompoundPoisson" ↔
      (¬(((([(49 : ℚ), 50, 51, 48, 52]).filter fun x => decide (0 < x) && decide (x ≤ 5)).length : ℚ) /
          ((([(49 : ℚ), 50, 51, 48, 52]).filter fun x => decide (0 < x)).length : ℚ) < 1 / 20) ∧
        ¬((((([(49 : ℚ), 50, 51, 48, 52]).filter fun x => decide (0 < x) && decide (x ≤ 5)).filter fun x =>
            is_integer_or_near x (1 / 20)).length : ℚ) /
          ((([(49 : ℚ), 50, 51, 48, 52]).filter fun x => decide (0 < x) && decide (x ≤ 5)).length : ℚ) >
          3 / 4)))) :=
  ⟨by norm_num [List.filter],
    claim_C2_amended (fun q => q) (fun q => q) (fun q => q) (fun q => q) (fun _ => FP.fin 0)
      (fun q => q) (fun _ _ _ _ => FP.fin 0) (fun _ => FP.fin 0) false [49, 50, 51, 48, 52]
      (1 / 1000000) (1 / 1000) (1 / 1000000) (9 / 20) 1 (by norm_num [List.filter])⟩

/-!
## Results and calibration (`src/spcal/result.py`)
-/

/-- `np.around` on a scalar: round half to even. -/
def roundHalfEven (q : ℚ) : ℚ :=
  let f : ℤ := ⌊q⌋
  let frac := q - f
  if frac < 1 / 2 then (f : ℚ)
  else if 1 / 2 < frac then ((f + 1 : ℤ) : ℚ)
  else if Even f then (f : ℚ) else ((f + 1 : ℤ) : ℚ)

/-- The pure conversion functions of `spcal.particle`, as opaque total
parameters.  Modelled from the spec: `spcal/particle.py` is not among the
provided sources; the spec (§4.5) gives the formulas and
`nanopart/util.py` contains matching implementations.  Every property
proved below holds for all instantiations. -/
structure ParticleFns where
  particle_mass : ℚ → ℚ → ℚ → ℚ → ℚ → ℚ → ℚ
  particle_size : ℚ → ℚ → ℚ
  cell_concentration : ℚ → ℚ → ℚ → ℚ
  particle_total_concentration : List ℚ → ℚ → ℚ → ℚ → ℚ
  particle_number_concentration : ℚ → ℚ → ℚ → ℚ → ℚ

/-- `np.flatnonzero`. -/
def flatnonzero (l : List ℚ) : List ℕ :=
  (List.range l.length).filter fun i => decide (l.getD i 0 ≠ 0)

/-- One channel's result record (`SPCalResult`).  `inputs` holds the
entries of `inputs_kws` whose values were not `None`. -/
structure SPCalResultR where
  responses : List ℚ
  detections : List (String × List ℚ)
  indicies : List ℕ
  background : FP
  inputs : List (String × ℚ)

/-- `SPCalResult.__init__`: raises when the detections array has size
zero, otherwise builds the record (detections dict seeded with the
'signal' key, indices of nonzero detections, background statistics over
the `label == 0` samples). -/
def mkSPCalResult (responses detections : List ℚ) (labels : List ℤ)
    (inputs : List (String × ℚ)) : Except String SPCalResultR :=
  if detections.length = 0 then Except.error "SPCalResult: detections size is zero"
  else Except.ok
    { responses := responses
      detections := [("signal", detections)]
      indicies := flatnonzero detections
      background := nanmean (((responses.zip labels).filter fun p => p.2 = 0).map Prod.fst)
      inputs := inputs }

/-- `key in self.inputs`. -/
def hasInput (r : SPCalResultR) (k : String) : Bool := (r.inputs.lookup k).isSome

/-- `self.inputs[key]` (only read behind a `hasInput` guard). -/
def inputD (r : SPCalResultR) (k : String) : ℚ := (r.inputs.lookup k).getD 0

/-- `SPCalResult.asMass`: via-efficiency calibration when 'dwelltime',
'efficiency', 'uptake', 'response' and 'mass_fraction' are all present,
else the mass-response calibration when 'mass_response' and
'mass_fraction' are present, else `None`; no path can raise. -/
def asMass (fns : ParticleFns) (r : SPCalResultR) (v : ℚ) : Option ℚ :=
  if ["dwelltime", "efficiency", "uptake", "response", "mass_fraction"].all
      (fun k => hasInput r k) then
    some (fns.particle_mass v (inputD r "dwelltime") (inputD r "efficiency")
      (inputD r "uptake") (inputD r "response") (inputD r "mass_fraction"))
  else if ["mass_response", "mass_fraction"].all (fun k => hasInput r k) then
    some (v * inputD r "mass_response" / inputD r "mass_fraction")
  else none

/-- `SPCalResult.asSize`: the converted mass, if available, divided into a
size when 'density' is present, else `None`. -/
def asSize (fns : ParticleFns) (r : SPCalResultR) (v : ℚ) : Option ℚ :=
  match asMass fns r v with
  | some m =>
      if hasInput r "density" then some (fns.particle_size m (inputD r "density")) else none
  | none => none

/-- `SPCalResult.asCellConcentration`: the converted mass, if available,
turned into an intracellular concentration when 'cell_diameter' and
'molar_mass' are present, else `None`. -/
def asCellConcentration (fns : ParticleFns) (r : SPCalResultR) (v : ℚ) : Option ℚ :=
  match asMass fns r v with
  | some m =>
      if hasInput r "cell_diameter" && hasInput r "molar_mass" then
        some (fns.cell_concentration m (inputD r "cell_diameter") (inputD r "molar_mass"))
      else none
  | none => none

/-- `SPCalResult.number`: the number of nonzero detections. -/
def resNumber (r : SPCalResultR) : ℕ := r.indicies.length

/-- `SPCalResult.mass_concentration`: requires 'mass'-type detections and
the 'efficiency', 'uptake' and 'time' inputs, else `None`. -/
def mass_concentration (fns : ParticleFns) (r : SPCalResultR) : Option ℚ :=
  if (r.detections.lookup "mass").isSome &&
      (["efficiency", "uptake", "time"].all fun k => hasInput r k) then
    some (fns.particle_total_concentration ((r.detections.lookup "mass").getD [])
      (inputD r "efficiency") (inputD r "uptake") (inputD r "time"))
  else none

/-- `SPCalResult.number_concentration`: requires the 'efficiency',
'uptake' and 'time' inputs, else `None`; the value is `np.around`-rounded. -/
def number_concentration (fns : ParticleFns) (r : SPCalResultR) : Option ℚ :=
  if ["efficiency", "uptake", "time"].all (fun k => hasInput r k) then
    some (roundHalfEven (fns.particle_number_concentration ((resNumber r : ℕ) : ℚ)
      (inputD r "efficiency") (inputD r "uptake") (inputD r "time")))
  else none

/-- C7: each derived-quantity accessor returns a value exactly when all of
its required named inputs are present (mass admits the two alternative
input sets of the source), and reports `None` otherwise; all accessors are
total functions into `Option` — no input combination raises. -/
theorem claim_C7_optional_inputs (fns : ParticleFns) (r : SPCalResultR) (v : ℚ) :
    ((asMass fns r v).isSome = true ↔
      ((hasInput r "dwelltime" = true ∧ hasInput r "efficiency" = true ∧
        hasInput r "uptake" = true ∧ hasInput r "response" = true ∧
        hasInput r "mass_fraction" = true) ∨
       (hasInput r "mass_response" = true ∧ hasInput r "mass_fraction" = true))) ∧
    ((asSize fns r v).isSome = true ↔
      (((hasInput r "dwelltime" = true ∧ hasInput r "efficiency" = true ∧
        hasInput r "uptake" = true ∧ hasInput r "response" = true ∧
        hasInput r "mass_fraction" = true) ∨
       (hasInput r "mass_response" = true ∧ hasInput r "mass_fraction" = true)) ∧
        hasInput r "density" = true)) ∧
    ((asCellConcentration fns r v).isSome = true ↔
      (((hasInput r "dwelltime" = true ∧ hasInput r "efficiency" = true ∧
        hasInput r "uptake" = true ∧ hasInput r "response" = true ∧
        hasInput r "mass_fraction" = true) ∨
       (hasInput r "mass_response" = true ∧ hasInput r "mass_fraction" = true)) ∧
        hasInput r "cell_diameter" = true ∧ hasInput r "molar_mass" = true)) ∧
    ((mass_concentration fns r).isSome = true ↔
      ((r.detections.lookup "mass").isSome = true ∧ hasInput r "efficiency" = true ∧
        hasInput r "uptake" = true ∧ hasInput r "time" = true)) ∧
    ((number_concentration fns r).isSome = true ↔
      (hasInput r "efficiency" = true ∧ hasInput r "uptake" = true ∧
        hasInput r "time" = true)) := by
  have hmass : (asMass fns r v).isSome = true ↔
      ((hasInput r "dwelltime" = true ∧ hasInput r "efficiency" = true ∧
        hasInput r "uptake" = true ∧ hasInput r "response" = true ∧
        hasInput r "mass_fraction" = true) ∨
       (hasInput r "mass_response" = true ∧ hasInput r "mass_fraction" = true)) := by
    rw [asMass]
    split_ifs with h1 h2
    · simp only [Option.isSome_some, true_iff]
      left
      simpa [List.all_cons, List.all_nil, Bool.and_eq_true, and_assoc] using h1
    · simp only [Option.isSome_some, true_iff]
      right
      simpa [List.all_cons, List.all_nil, Bool.and_eq_true, and_assoc] using h2
    · refine iff_of_false (by simp) ?_
      rintro (hc | hc)
      · exact h1 (by simp [List.all_cons, List.all_nil, Bool.and_eq_true, and_assoc, hc.1,
          hc.2.1, hc.2.2.1, hc.2.2.2.1, hc.2.2.2.2])
      · exact h2 (by simp [List.all_cons, List.all_nil, Bool.and_eq_true, and_assoc, hc.1, hc.2])
  refine ⟨hmass, ?_, ?_, ?_, ?_⟩
  · rw [asSize]
    rcases hAM : asMass fns r v with - | m
    · refine iff_of_false (by simp) ?_
      rintro ⟨hc, -⟩
      have := hmass.mpr hc
      rw [hAM] at this
      cases this
    · split_ifs with hd
      · simp only [Option.isSome_some, true_iff]
        exact ⟨hmass.mp (by rw [hAM]; rfl), hd⟩
      · refine iff_of_false (by simp) ?_
        rintro ⟨-, hc⟩
        exact hd hc
  · rw [asCellConcentration]
    rcases hAM : asMass fns r v with - | m
    · refine iff_of_false (by simp) ?_
      rintro ⟨hc, -⟩
      have := hmass.mpr hc
      rw [hAM] at this
      cases this
    · split_ifs with hd
      · simp only [Option.isSome_some, true_iff]
        rw [Bool.and_eq_true] at hd
        exact ⟨hmass.mp (by rw [hAM]; rfl), hd.1, hd.2⟩
      · refine iff_of_false (by simp) ?_
        rintro ⟨-, hc1, hc2⟩
        exact hd (by rw [Bool.and_eq_true]; exact ⟨hc1, hc2⟩)
  · rw [mass_concentration]
    split_ifs with hd
    · simp only [Option.isSome_some, true_iff]
      rw [Bool.and_eq_true] at hd
      refine ⟨hd.1, ?_⟩
      simpa [List.all_cons, List.all_nil, Bool.and_eq_true, and_assoc] using hd.2
    · refine iff_of_false (by simp) ?_
      rintro ⟨hc1, hc2, hc3, hc4⟩
      exact hd (by
        rw [Bool.and_eq_true]
        exact ⟨hc1, by simp [List.all_cons, List.all_nil, Bool.and_eq_true, hc2, hc3, hc4]⟩)
  · rw [number_concentration]
    split_ifs with hd
    · simp only [Option.isSome_some, true_iff]
      simpa [List.all_cons, List.all_nil, Bool.and_eq_true, and_assoc] using hd
    · refine iff_of_false (by simp) ?_
      rintro ⟨hc1, hc2, hc3⟩
      exact hd (by simp [List.all_cons, List.all_nil, Bool.and_eq_true, hc1, hc2, hc3])

/-- C10: constructing a result with a zero-length detections array always
raises, and with any nonempty detections array (zero-valued entries
included) construction succeeds, regardless of which calibration inputs
are supplied. -/
theorem claim_C10_empty_detections (responses detections : List ℚ) (labels : List ℤ)
    (inputs : List (String × ℚ)) :
    (mkSPCalResult responses detections labels inputs =
        Except.error "SPCalResult: detections size is zero" ↔ detections = []) ∧
    (detections ≠ [] →
      ∃ res, mkSPCalResult responses detections labels inputs = Except.ok res) := by
  constructor
  · rw [mkSPCalResult]
    split_ifs with hz
    · simp only [true_iff]
      exact List.eq_nil_of_length_eq_zero hz
    · constructor
      · intro hcon
        cases hcon
      · intro hcon
        exact absurd (by rw [hcon]; rfl) hz
  · intro hne
    rw [mkSPCalResult, if_neg (fun hc => hne (List.eq_nil_of_length_eq_zero hc))]
    exact ⟨_, rfl⟩

theorem claim_C10_witness :
    ((mkSPCalResult [0, 1] [0] [0, 1] [] =
        Except.error "SPCalResult: detections size is zero" ↔ ([(0 : ℚ)]) = []) ∧
      (([(0 : ℚ)]) ≠ [] →
        ∃ res, mkSPCalResult [0, 1] [0] [0, 1] [] = Except.ok res)) :=
  claim_C10_empty_detections [0, 1] [0] [0, 1] []

/-!
## Calibration arithmetic (`src/nanopart/util.py`)
-/

/-- `np.cbrt`: the real cube root (negative arguments get the negated root
of the absolute value). -/
noncomputable def npCbrt (x : ℝ) : ℝ :=
  if x < 0 then -((-x) ^ ((1 : ℝ) / 3)) else x ^ ((1 : ℝ) / 3)

/-- `nanopart.util.particle_size(masses, density) =
np.cbrt(6.0 / (np.pi * density) * masses)`. -/
noncomputable def particle_size (mass density : ℝ) : ℝ :=
  npCbrt (6 / (Real.pi * density) * mass)

/-- C9: for a nonnegative mass and positive density, re-deriving the mass
from the size via the inverse sphere-volume formula `(π/6)·ρ·d³` returns
the original mass exactly. -/
theorem claim_C9_size_mass_roundtrip (m ρ : ℝ) (hm : 0 ≤ m) (hρ : 0 < ρ) :
    Real.pi / 6 * ρ * particle_size m ρ ^ (3 : ℕ) = m := by
  have hπ := Real.pi_pos
  have hrad : 0 ≤ 6 / (Real.pi * ρ) * m := by positivity
  rw [particle_size, npCbrt, if_neg (not_lt.mpr hrad)]
  rw [← Real.rpow_natCast ((6 / (Real.pi * ρ) * m) ^ ((1 : ℝ) / 3)) 3,
    ← Real.rpow_mul hrad]
  norm_num
  have hpi : Real.pi ≠ 0 := ne_of_gt hπ
  have hrho : ρ ≠ 0 := ne_of_gt hρ
  field_simp
  ring

theorem claim_C9_witness :
    (0 : ℝ) ≤ 1 ∧ (0 : ℝ) < 1 ∧
      Real.pi / 6 * 1 * particle_size 1 1 ^ (3 : ℕ) = 1 :=
  ⟨by norm_num, by norm_num, claim_C9_size_mass_roundtrip 1 1 (by norm_num) (by norm_num)⟩

/-!
## Composition clustering (`src/spcal/cluster.py`)
-/

/-- `np.bincount(T)`: counts of each value `0 .. max(T)`. -/
def bincount (t : List ℕ) : List ℕ :=
  (List.range (if t.isEmpty then 0 else t.foldr max 0 + 1)).map fun j => t.count j

/-- `np.bincount(T, weights=w)` at one bin. -/
def bincountW (t : List ℕ) (w : List ℚ) (j : ℕ) : ℚ :=
  (((t.zip w).filter fun p => p.1 = j).map Prod.snd).sum

/-- Column `i` of the sample matrix. -/
def colOf (X : List (List ℚ)) (i : ℕ) : List ℚ := X.map fun row => row.getD i 0

/-- Row `j` of the per-cluster means `sx / counts` (NaN for an empty bin,
as in numpy's `0/0`). -/
def clusterMeanRow (X : List (List ℚ)) (T : List ℕ) (j : ℕ) : List FP :=
  (List.range ((X.head?.map List.length).getD 0)).map fun i =>
    if (bincount T).getD j 0 = 0 then FP.nan
    else FP.fin (bincountW T (colOf X i) j / ((bincount T).getD j 0 : ℚ))

/-- Row `j` of the per-cluster variances `sx2 / counts - means²`; the
source returns the elementwise square root of these (`np.sqrt`), a
monotone map that does not affect any ordering property. -/
def clusterVarRow (X : List (List ℚ)) (T : List ℕ) (j : ℕ) : List FP :=
  (List.range ((X.head?.map List.length).getD 0)).map fun i =>
    if (bincount T).getD j 0 = 0 then FP.nan
    else FP.fin (bincountW T ((colOf X i).map fun x => x ^ 2) j / ((bincount T).getD j 0 : ℚ)
      - (bincountW T (colOf X i) j / ((bincount T).getD j 0 : ℚ)) ^ 2)

/-- Insert into a sorted list. -/
def insertSorted (le : ℕ → ℕ → Bool) (a : ℕ) : List ℕ → List ℕ
  | [] => [a]
  | b :: t => if le a b then a :: b :: t else b :: insertSorted le a t

/-- Insertion sort. -/
def insertionSort (le : ℕ → ℕ → Bool) : List ℕ → List ℕ
  | [] => []
  | a :: t => insertSorted le a (insertionSort le t)

/-- The comparison realised by `np.argsort(counts)`: ascending by count,
ties by index.  numpy's default sort leaves the tie order unspecified;
on every input appearing below its introsort agrees with this stable
model. -/
def argsortLe (counts : List ℕ) (a b : ℕ) : Bool :=
  decide (counts.getD a 0 < counts.getD b 0) ||
    (decide (counts.getD a 0 = counts.getD b 0) && decide (a ≤ b))

/-- `np.argsort(counts)` (stable model). -/
def argsort (counts : List ℕ) : List ℕ :=
  insertionSort (argsortLe counts) (List.range counts.length)

/-- `spcal.cluster.cluster_information(X, T)`: per-cluster means,
(squared) stds and counts, all permuted by `np.argsort(counts)[::-1]`. -/
def cluster_information (X : List (List ℚ)) (T : List ℕ) :
    List (List FP) × List (List FP) × List ℕ :=
  let counts := bincount T
  let idx := (argsort counts).reverse
  (idx.map fun j => clusterMeanRow X T j,
    idx.map fun j => clusterVarRow X T j,
    idx.map fun j => counts.getD j 0)

theorem insertSorted_perm (le : ℕ → ℕ → Bool) (a : ℕ) :
    ∀ l : List ℕ, (insertSorted le a l).Perm (a :: l) := by
  intro l
  induction l with
  | nil => exact List.Perm.refl _
  | cons b t ih =>
      rw [insertSorted]
      split_ifs
      · exact List.Perm.refl _
      · exact ((ih.cons b).trans (List.Perm.swap a b t))

theorem insertionSort_perm (le : ℕ → ℕ → Bool) :
    ∀ l : List ℕ, (insertionSort le l).Perm l := by
  intro l
  induction l with
  | nil => exact List.Perm.refl _
  | cons a t ih =>
      exact (insertSorted_perm le a (insertionSort le t)).trans (ih.cons a)

theorem insertSorted_pairwise (le : ℕ → ℕ → Bool)
    (htot : ∀ a b, le a b = true ∨ le b a = true)
    (htrans : ∀ a b c, le a b = true → le b c = true → le a c = true) (a : ℕ) :
    ∀ l : List ℕ, l.Pairwise (fun x y => le x y = true) →
      (insertSorted le a l).Pairwise (fun x y => le x y = true) := by
  intro l
  induction l with
  | nil =>
      intro _
      simp [insertSorted]
  | cons b t ih =>
      intro h
      rw [insertSorted]
      split_ifs with hab
      · refine List.Pairwise.cons ?_ h
        intro y hy
        rcases List.mem_cons.mp hy with rfl | hy'
        · exact hab
        · exact htrans a b y hab ((List.pairwise_cons.mp h).1 y hy')
      · refine List.Pairwise.cons ?_ (ih (List.pairwise_cons.mp h).2)
        intro y hy
        have hy' : y ∈ a :: t := (insertSorted_perm le a t).mem_iff.mp hy
        rcases List.mem_cons.mp hy' with heq | hy''
        · subst heq
          rcases htot y b with h1 | h2
          · exact absurd h1 hab
          · exact h2
        · exact (List.pairwise_cons.mp h).1 y hy''

theorem insertionSort_pairwise (le : ℕ → ℕ → Bool)
    (htot : ∀ a b, le a b = true ∨ le b a = true)
    (htrans : ∀ a b c, le a b = true → le b c = true → le a c = true) :
    ∀ l : List ℕ, (insertionSort le l).Pairwise (fun x y => le x y = true) := by
  intro l
  induction l with
  | nil => simp [insertionSort]
  | cons a t ih => exact insertSorted_pairwise le htot htrans a _ ih

theorem argsortLe_total (counts : List ℕ) :
    ∀ a b, argsortLe counts a b = true ∨ argsortLe counts b a = true := by
  intro a b
  rw [argsortLe, argsortLe]
  simp only [Bool.or_eq_true, Bool.and_eq_true, decide_eq_true_eq]
  omega

theorem argsortLe_trans (counts : List ℕ) :
    ∀ a b c, argsortLe counts a b = true → argsortLe counts b c = true →
      argsortLe counts a c = true := by
  intro a b c hab hbc
  rw [argsortLe] at hab hbc ⊢
  simp only [Bool.or_eq_true, Bool.and_eq_true, decide_eq_true_eq] at hab hbc ⊢
  rcases hab with h1 | ⟨h1, h1'⟩ <;> rcases hbc with h2 | ⟨h2, h2'⟩
  · left; omega
  · left; omega
  · left; omega
  · right; exact ⟨by omega, by omega⟩

theorem argsort_perm (counts : List ℕ) : (argsort counts).Perm (List.range counts.length) :=
  insertionSort_perm _ _

theorem argsort_sorted (counts : List ℕ) :
    (argsort counts).Pairwise (fun a b => argsortLe counts a b = true) :=
  insertionSort_pairwise _ (argsortLe_total counts) (argsortLe_trans counts) _

/-- C8 amended: `cluster_information` returns the per-cluster means,
(squared) stds and member counts permuted by `np.argsort(counts)[::-1]`:
the counts come out in descending order, but clusters with equal member
counts appear in *reverse* original cluster-index order (the ascending
stable argsort is reversed), not in original order. -/
theorem claim_C8_amended (X : List (List ℚ)) (T : List ℕ) :
    (cluster_information X T).2.2 =
      ((argsort (bincount T)).reverse).map (fun j => (bincount T).getD j 0) ∧
    (cluster_information X T).1 =
      ((argsort (bincount T)).reverse).map (fun j => clusterMeanRow X T j) ∧
    (cluster_information X T).2.1 =
      ((argsort (bincount T)).reverse).map (fun j => clusterVarRow X T j) ∧
    ((argsort (bincount T)).reverse).Perm (List.range (bincount T).length) ∧
    ((argsort (bincount T)).reverse).Pairwise (fun a b =>
      (bincount T).getD b 0 < (bincount T).getD a 0 ∨
      ((bincount T).getD a 0 = (bincount T).getD b 0 ∧ b < a)) := by
  refine ⟨rfl, rfl, rfl, (List.reverse_perm _).trans (argsort_perm (bincount T)), ?_⟩
  have hrev : ((argsort (bincount T)).reverse).Pairwise
      (fun a b => argsortLe (bincount T) b a = true) :=
    List.pairwise_reverse.mpr (argsort_sorted (bincount T))
  have hnd : ((argsort (bincount T)).reverse).Nodup := by
    have := ((List.reverse_perm _).trans (argsort_perm (bincount T))).nodup_iff
    exact this.mpr (List.nodup_range _)
  have hcomb := List.Pairwise.and hnd hrev
  refine hcomb.imp ?_
  rintro a b ⟨hne, hle⟩
  rw [argsortLe] at hle
  simp only [Bool.or_eq_true, Bool.and_eq_true, decide_eq_true_eq] at hle
  rcases hle with h1 | ⟨h1, h2⟩
  · left; exact h1
  · right
    exact ⟨h1.symm, by omega⟩

/-- C8 counterexample: with two singleton clusters (equal member counts),
the summary lists cluster 1 before cluster 0 — `np.argsort([1, 1])[::-1]`
is `[1, 0]` — so ties do not keep original cluster-index order. -/
theorem claim_C8_counterexample :
    (cluster_information [[1], [2]] [0, 1]).2.2 = [1, 1] ∧
    (cluster_information [[1], [2]] [0, 1]).1 = [[FP.fin 2], [FP.fin 1]] ∧
    ([[FP.fin 2], [FP.fin 1]] : List (List FP)) ≠ [[FP.fin 1], [FP.fin 2]] := by
  refine ⟨?_, ?_, ?_⟩
  · norm_num [cluster_information, bincount, argsort, insertionSort, insertSorted, argsortLe,
      List.count, List.foldr]
  · norm_num [cluster_information, bincount, argsort, insertionSort, insertSorted, argsortLe,
      clusterMeanRow, bincountW, colOf, List.count, List.foldr, List.zip, List.zipWith,
      List.range_succ]
  · intro hcon
    injection hcon with h1 h2
    injection h1 with h3
    exact absurd (FP.fin.inj h3) (by norm_num)
